import Mathlib

/-! # modgraph: the graph store and its transitive reduction

A shallow embedding of `src/main.go`.

* Go strings are Lean `String`s.  Go compares strings bytewise; on well-formed
  UTF-8 this is the code-point order of Lean's `String`.
* A Go `map[string][]string` is an association list with pairwise distinct keys,
  read with `lookup` / `index` and written with `assign`.  The position of a key
  in the list is never observed: the only iteration over a map whose order
  matters (`range s.deps` in `transitiveReduction`) takes the visiting order as
  an explicit argument, the sorted views sort their keys.
* A Go `map[string]struct{}` is the list of its keys.
* The memo `noPath` (`map[string]map[string]struct{}`) is a list of pairs
  `(c, d)`, read as "`d` is recorded under `c`".
* The breadth expansion of `transitiveReduction` keeps no visited set and need
  not terminate on a cyclic graph, so it is run with fuel; `none` is "fuel
  exhausted".
-/

namespace Modgraph

/-! ## Maps -/

/-- Go's `v, ok := m[k]`: `some v` when `k` is a key of `m`, `none` otherwise. -/
def lookup : List (String × List String) → String → Option (List String)
  | [], _ => none
  | (k, v) :: rest, key => if k = key then some v else lookup rest key

/-- Go's `m[k]` in value position: the zero value (a nil slice) for a missing key. -/
def index (m : List (String × List String)) (key : String) : List String :=
  (lookup m key).getD []

/-- Go's `m[k] = v`: replaces the value of an existing key, adds the key otherwise. -/
def assign : List (String × List String) → String → List String → List (String × List String)
  | [], key, v => [(key, v)]
  | (k, w) :: rest, key, v => if k = key then (k, v) :: rest else (k, w) :: assign rest key v

/-- The keys of a map. -/
def keys (m : List (String × List String)) : List String :=
  m.map Prod.fst

/-- Every slice stored in a map, concatenated: all edge targets. -/
def targets (m : List (String × List String)) : List String :=
  (m.map Prod.snd).flatten

/-! ## Strings -/

/-- Go's `strings.Cut(s, sep)` for a one-character separator: the text before the first
`sep`, the text after it, and whether `sep` occurs; `(s, "", false)` when it does not. -/
def Cut (s : String) (sep : Char) : String × String × Bool :=
  if sep ∈ s.data then
    (String.mk (s.data.takeWhile fun c => c != sep),
     String.mk (s.data.dropWhile fun c => c != sep).tail, true)
  else (s, "", false)

/-! ## The graph store -/

/-- The `state` struct: `deps` is the adjacency map, `seen` the node set, `repos` the
repository groups. -/
structure state where
  deps : List (String × List String)
  seen : List String
  repos : List (String × List String)
deriving DecidableEq, Repr

/-- `newState`: three empty maps. -/
def newState : state :=
  { deps := [], seen := [], repos := [] }

/-- `state.sawMod`: on the first sight of `path`, records it in `seen` and appends it to
the group of its repository (created when missing). -/
def state.sawMod (s : state) (path : String) : state :=
  if path ∈ s.seen then s
  else
    let repo := (Cut path '/').1
    { s with
      seen := s.seen ++ [path]
      repos :=
        match lookup s.repos repo with
        | none => assign s.repos repo [path]
        | some g => assign s.repos repo (g ++ [path]) }

/-- `state.add`: registers both nodes, then appends `dep` to the list of `mod` unless it
is already there. -/
def state.add (s : state) (mod dep : String) : state :=
  let s1 := (s.sawMod mod).sawMod dep
  match lookup s1.deps mod with
  | some d => if dep ∈ d then s1 else { s1 with deps := assign s1.deps mod (d ++ [dep]) }
  | none => { s1 with deps := assign s1.deps mod [dep] }

/-- The state reached from `newState` by calling `add` on each pair in turn. -/
def build (edges : List (String × String)) : state :=
  edges.foldl (fun s e => s.add e.1 e.2) newState

/-! ## Transitive reduction -/

/-- The inner `for _, child := range children` loop of one breadth step, looking for `d`.
`none` is the early `return true` (a child equals `d`); `some next` is the next frontier.
A child recorded in the memo as not leading to `d` is skipped, any other child contributes
its current adjacency list `s.deps[child]`. -/
def expand (deps : List (String × List String)) (noPath : List (String × String)) (d : String) :
    List String → List String → Option (List String)
  | [], next => some next
  | child :: rest, next =>
    if child = d then none
    else if (child, d) ∈ noPath then expand deps noPath d rest next
    else expand deps noPath d rest (next ++ index deps child)

/-- How the breadth expansion for one candidate edge ends. -/
inductive Outcome where
  | found
  | exhausted (touched : List String)
deriving DecidableEq, Repr

/-- The loop `for len(children) > 0`: each round appends the frontier to `touched` and
expands it.  One unit of fuel per round of expansion; `none` when the fuel runs out
before the frontier is empty. -/
def search (deps : List (String × List String)) (noPath : List (String × String)) (d : String) :
    Nat → List String → List String → Option Outcome
  | _, [], touched => some (Outcome.exhausted touched)
  | 0, _ :: _, _ => none
  | fuel + 1, c :: cs, touched =>
    match expand deps noPath d (c :: cs) [] with
    | none => some Outcome.found
    | some next => search deps noPath d fuel next (touched ++ c :: cs)

/-- The loop `for _, t := range touched` after a failed search: records `d` under every
touched node. -/
def record (noPath : List (String × String)) (touched : List String) (d : String) :
    List (String × String) :=
  noPath ++ touched.map fun t => (t, d)

/-- The closure passed to `slices.DeleteFunc`, for the candidate edge to `d`.  `view` is
what the captured slice `deps` holds at the time of the call and `cur` is `s.deps` at that
time.  Returns whether the edge is to be deleted, and the memo afterwards. -/
def redundant (fuel : Nat) (cur : List (String × List String)) (noPath : List (String × String))
    (view : List String) (d : String) : Option (Bool × List (String × String)) :=
  match search cur noPath d fuel (view.filter fun c => c != d) [] with
  | none => none
  | some Outcome.found => some (true, noPath)
  | some (Outcome.exhausted touched) => some (false, record noPath touched d)

/-- The call `slices.DeleteFunc(deps, ...)` for the node `m` whose list is `orig`.
`DeleteFunc` compacts the slice in place: after `kept` survivors the backing array, which
the closure reads through the captured `deps` and through `s.deps[m]`, holds `kept`
followed by the original elements from position `len(kept)` on.  (Up to the first
deletion nothing is written and this is `orig` itself.)  `todo` holds the elements still
to be tested. -/
def DeleteFunc (fuel : Nat) (deps : List (String × List String)) (m : String)
    (orig : List String) :
    List String → List String → List (String × String) →
      Option (List String × List (String × String))
  | [], kept, noPath => some (kept, noPath)
  | d :: todo, kept, noPath =>
    let view := kept ++ orig.drop kept.length
    match redundant fuel (assign deps m view) noPath view d with
    | none => none
    | some (true, noPath1) => DeleteFunc fuel deps m orig todo kept noPath1
    | some (false, noPath1) => DeleteFunc fuel deps m orig todo (kept ++ [d]) noPath1

/-- The loop `for m, deps := range s.deps`, visiting the keys in the given order and
storing each reduced list back under its key. -/
def reduceNodes (fuel : Nat) :
    List String → List (String × List String) → List (String × String) →
      Option (List (String × List String) × List (String × String))
  | [], deps, noPath => some (deps, noPath)
  | m :: rest, deps, noPath =>
    match lookup deps m with
    | none => reduceNodes fuel rest deps noPath
    | some orig =>
      match DeleteFunc fuel deps m orig orig [] noPath with
      | none => none
      | some (kept, noPath1) => reduceNodes fuel rest (assign deps m kept) noPath1

/-- `state.transitiveReduction`, with the order in which `range s.deps` visits the keys
and the fuel of each breadth expansion as arguments. -/
def state.transitiveReduction (fuel : Nat) (order : List String) (s : state) : Option state :=
  match reduceNodes fuel order s.deps [] with
  | none => none
  | some (deps1, _) => some { s with deps := deps1 }

/-! ## The reduction with the memo check removed -/

/-- The loop of `expand` with the memo check removed: every child other than `d`
contributes its adjacency list. -/
def expandAll (deps : List (String × List String)) (d : String) :
    List String → List String → Option (List String)
  | [], next => some next
  | child :: rest, next =>
    if child = d then none
    else expandAll deps d rest (next ++ index deps child)

/-- The breadth expansion on `expandAll`.  Without the memo check the memo and `touched`
do not influence the answer and are left out: `some true` is "found", `some false` is
"frontier empty", `none` is "out of fuel". -/
def searchAll (deps : List (String × List String)) (d : String) :
    Nat → List String → Option Bool
  | _, [] => some false
  | 0, _ :: _ => none
  | fuel + 1, c :: cs =>
    match expandAll deps d (c :: cs) [] with
    | none => some true
    | some next => searchAll deps d fuel next

/-- The closure of `redundant` on `searchAll`. -/
def redundantAll (fuel : Nat) (cur : List (String × List String)) (view : List String)
    (d : String) : Option Bool :=
  searchAll cur d fuel (view.filter fun c => c != d)

/-- The call `slices.DeleteFunc` of `DeleteFunc`, with the closure `redundantAll`. -/
def DeleteFuncAll (fuel : Nat) (deps : List (String × List String)) (m : String)
    (orig : List String) : List String → List String → Option (List String)
  | [], kept => some kept
  | d :: todo, kept =>
    let view := kept ++ orig.drop kept.length
    match redundantAll fuel (assign deps m view) view d with
    | none => none
    | some true => DeleteFuncAll fuel deps m orig todo kept
    | some false => DeleteFuncAll fuel deps m orig todo (kept ++ [d])

/-- The loop over the nodes of `reduceNodes`, on `DeleteFuncAll`. -/
def reduceNodesAll (fuel : Nat) :
    List String → List (String × List String) → Option (List (String × List String))
  | [], deps => some deps
  | m :: rest, deps =>
    match lookup deps m with
    | none => reduceNodesAll fuel rest deps
    | some orig =>
      match DeleteFuncAll fuel deps m orig orig [] with
      | none => none
      | some kept => reduceNodesAll fuel rest (assign deps m kept)

/-- The procedure `transitiveReduction` with the memo check removed. -/
def state.transitiveReductionNoMemo (fuel : Nat) (order : List String) (s : state) :
    Option state :=
  match reduceNodesAll fuel order s.deps with
  | none => none
  | some deps1 => some { s with deps := deps1 }

/-! ## The memo during the run -/

/-- The pairs (`s.deps`, `noPath`) seen during one `DeleteFunc` call: for each candidate,
at the entry of the closure and at its return.  While the call runs, `s.deps[m]` is the
backing array `view`. -/
def DeleteFuncTrace (fuel : Nat) (deps : List (String × List String)) (m : String)
    (orig : List String) :
    List String → List String → List (String × String) →
      List (List (String × List String) × List (String × String))
  | [], _, _ => []
  | d :: todo, kept, noPath =>
    let view := kept ++ orig.drop kept.length
    (assign deps m view, noPath) ::
      match redundant fuel (assign deps m view) noPath view d with
      | none => []
      | some (true, noPath1) =>
        (assign deps m view, noPath1) :: DeleteFuncTrace fuel deps m orig todo kept noPath1
      | some (false, noPath1) =>
        (assign deps m view, noPath1) ::
          DeleteFuncTrace fuel deps m orig todo (kept ++ [d]) noPath1

/-- The pairs (`s.deps`, `noPath`) seen during the loop over the nodes: before each node,
during its `DeleteFunc` call, and at the end, each reduced list having been stored. -/
def reduceNodesTrace (fuel : Nat) :
    List String → List (String × List String) → List (String × String) →
      List (List (String × List String) × List (String × String))
  | [], deps, noPath => [(deps, noPath)]
  | m :: rest, deps, noPath =>
    (deps, noPath) ::
      match lookup deps m with
      | none => reduceNodesTrace fuel rest deps noPath
      | some orig =>
        DeleteFuncTrace fuel deps m orig orig [] noPath ++
          match DeleteFunc fuel deps m orig orig [] noPath with
          | none => []
          | some (kept, noPath1) => reduceNodesTrace fuel rest (assign deps m kept) noPath1

/-- The pairs (`s.deps`, `noPath`) seen during `transitiveReduction`. -/
def state.memoTrace (fuel : Nat) (order : List String) (s : state) :
    List (List (String × List String) × List (String × String)) :=
  reduceNodesTrace fuel order s.deps []

/-! ## Sorted views -/

/-- `state.depsSorted`: the pairs yielded to a consumer that never stops, one per key of
`seen` in ascending order, each with `s.deps[m]`. -/
def state.depsSorted (s : state) : List (String × List String) :=
  (s.seen.insertionSort fun a b => a ≤ b).map fun m => (m, index s.deps m)

/-- `state.reposSorted`: one pair per repository key in ascending order. -/
def state.reposSorted (s : state) : List (String × List String) :=
  ((keys s.repos).insertionSort fun a b => a ≤ b).map fun r => (r, index s.repos r)

/-! ## Parsing the input -/

/-- Go's `unicode.IsSpace`: the Latin-1 spaces `\t`, `\n`, `\v`, `\f`, `\r`, the blank,
U+0085 and U+00A0, and beyond Latin-1 the code points with the White_Space property. -/
def IsSpace (c : Char) : Bool :=
  (0x09 ≤ c.toNat && c.toNat ≤ 0x0D) || c.toNat == 0x20 || c.toNat == 0x85 ||
    c.toNat == 0xA0 || c.toNat == 0x1680 || (0x2000 ≤ c.toNat && c.toNat ≤ 0x200A) ||
    c.toNat == 0x2028 || c.toNat == 0x2029 || c.toNat == 0x202F || c.toNat == 0x205F ||
    c.toNat == 0x3000

/-- Go's `strings.TrimSpace`: the string without its leading and trailing white space. -/
def TrimSpace (s : String) : String :=
  String.mk ((s.data.dropWhile IsSpace).rdropWhile IsSpace)

/-- The pieces of a character list between the occurrences of `sep`: one more piece than
there are occurrences, empty pieces included. -/
def splitChars (sep : Char) : List Char → List (List Char)
  | [] => [[]]
  | c :: cs =>
    if c = sep then [] :: splitChars sep cs
    else
      match splitChars sep cs with
      | [] => [[c]]
      | piece :: pieces => (c :: piece) :: pieces

/-- Go's `strings.Split(s, sep)` for a one-character separator. -/
def Split (s : String) (sep : Char) : List String :=
  (splitChars sep s.data).map String.mk

/-- The body of the loop `for scanner.Scan()` of `scanDeps` on one scanned line: `none`
when the line is skipped (blank, or not exactly two parts), otherwise the pair that is
yielded, each part cut at its first `@`. -/
def scanLine (text : String) : Option (String × String) :=
  let line := TrimSpace text
  if line = "" then none
  else
    match Split line ' ' with
    | [part0, part1] => some ((Cut part0 '@').1, (Cut part1 '@').1)
    | _ => none

/-- `scanDeps` on the lines the scanner delivers: the pairs yielded, in order, to a
consumer that never stops. -/
def scanDeps : List String → List (String × String)
  | [] => []
  | text :: rest =>
    match scanLine text with
    | none => scanDeps rest
    | some pair => pair :: scanDeps rest

/-! ## Ingestion in `Main` -/

/-- Go's `strings.HasPrefix(s, pfx)`. -/
def HasPrefix (s pfx : String) : Bool :=
  s.data.take pfx.data.length == pfx.data

/-- Go's `strings.TrimPrefix(s, pfx)`: `s` without the leading `pfx`, or `s` itself when it
does not start with `pfx`. -/
def TrimPrefix (s pfx : String) : String :=
  if HasPrefix s pfx then String.mk (s.data.drop pfx.data.length) else s

/-- The body of the loop `for mod, dep := range scanDeps(os.Stdin)` of `Main`, for the
configured `-prefix` value `pfx`: a pair with a side that does not start with `pfx` is
skipped, any other pair is added with `pfx` removed from both sides. -/
def ingestStep (pfx : String) (s : state) (pair : String × String) : state :=
  if !HasPrefix pair.1 pfx || !HasPrefix pair.2 pfx then s
  else s.add (TrimPrefix pair.1 pfx) (TrimPrefix pair.2 pfx)

/-- The ingestion loop of `Main` over the pairs that `scanDeps` yields. -/
def ingest (pfx : String) (pairs : List (String × String)) : state :=
  pairs.foldl (ingestStep pfx) newState

/-! ## The inline ingestion of `modgraph.go` -/

/-- The three local maps of `main` in `modgraph.go`. -/
structure locals where
  repos : List (String × List String)
  seen : List String
  deps : List (String × List String)
deriving DecidableEq, Repr

/-- The three maps as `make` creates them. -/
def emptyLocals : locals :=
  { repos := [], seen := [], deps := [] }

/-- The closure `sawMod` of `modgraph.go`. -/
def inlineSawMod (v : locals) (path : String) : locals :=
  if path ∈ v.seen then v
  else
    let seen1 := v.seen ++ [path]
    let repo := (Cut path '/').1
    match lookup v.repos repo with
    | none => { v with seen := seen1, repos := assign v.repos repo [path] }
    | some g => { v with seen := seen1, repos := assign v.repos repo (g ++ [path]) }

/-- The statements of the loop body of `modgraph.go` after the filter: two calls of the
closure, then the dedup-checked append to `deps`. -/
def inlineAdd (v : locals) (modPath depPath : String) : locals :=
  let v1 := inlineSawMod v modPath
  let v2 := inlineSawMod v1 depPath
  match lookup v2.deps modPath with
  | some d =>
    if depPath ∈ d then v2 else { v2 with deps := assign v2.deps modPath (d ++ [depPath]) }
  | none => { v2 with deps := assign v2.deps modPath [depPath] }

/-- The whole ingestion loop of `modgraph.go` for the `-prefix` value `pfx`. -/
def inlineIngest (pfx : String) (pairs : List (String × String)) : locals :=
  pairs.foldl
    (fun v pair =>
      if !HasPrefix pair.1 pfx || !HasPrefix pair.2 pfx then v
      else inlineAdd v (TrimPrefix pair.1 pfx) (TrimPrefix pair.2 pfx))
    emptyLocals

/-- The three maps of a `state`, as locals. -/
def state.toLocals (s : state) : locals :=
  { repos := s.repos, seen := s.seen, deps := s.deps }

/-! ## Rendering the repository groups -/

/-- The text `Main` prints for one repository group: the `subgraph` line, one line per
member, `end`, and the `click` line built from the `-prefix` value and the repository. -/
def repoBlock (pfx repo : String) (mods : List String) : String :=
  "\n\tsubgraph " ++ repo ++ "-repo[" ++ repo ++ "]\n" ++
    String.join (mods.map fun m => "\t\t " ++ m ++ "\n") ++
    "\tend\n" ++ "\tclick " ++ repo ++ "-repo href \"https://" ++ pfx ++ repo ++ "\"\n"

/-- The loop `for repo, mods := range deps.reposSorted()` of `Main`: a repository with at
most one member is skipped; any other is appended to `subgraphs` as `repo-repo` and its
block is printed with the members sorted.  Returns the text printed and `subgraphs`. -/
def printRepos (pfx : String) :
    List (String × List String) → String → List String → String × List String
  | [], out, subgraphs => (out, subgraphs)
  | (repo, mods) :: rest, out, subgraphs =>
    if mods.length ≤ 1 then printRepos pfx rest out subgraphs
    else
      printRepos pfx rest (out ++ repoBlock pfx repo (mods.insertionSort fun a b => a ≤ b))
        (subgraphs ++ [repo ++ "-repo"])

/-- The two closing lines of `Main`: the class definition and the class directive naming
every element of `subgraphs`. -/
def classLines (subgraphs : List String) : String :=
  "\n\tclassDef outline stroke-dasharray:6,fill:none;\n" ++
    "\tclass " ++ ",".intercalate subgraphs ++ " outline\n"

/-! ## Specification vocabulary -/

/-- There is an edge from `a` to `b` in the adjacency map. -/
def Edge (deps : List (String × List String)) (a b : String) : Prop :=
  b ∈ index deps a

/-- Reachability: a path of one or more edges from `a` to `b`. -/
def Reach (deps : List (String × List String)) : String → String → Prop :=
  Relation.TransGen (Edge deps)

/-- The adjacency map has no cycle: no node reaches itself. -/
def Acyclic (deps : List (String × List String)) : Prop :=
  ∀ a, ¬ Reach deps a a

/-- A path of two or more edges from `m` to `d`: an edge from `m` to some `c`, then a
path from `c` to `d`. -/
def Detour (deps : List (String × List String)) (m d : String) : Prop :=
  ∃ c, Edge deps m c ∧ Reach deps c d

/-- The adjacency map without the edge from `m` to `d`. -/
def removeEdge (deps : List (String × List String)) (m d : String) :
    List (String × List String) :=
  assign deps m ((index deps m).filter fun c => c != d)

/-- The map in which the list of every key in `done` keeps exactly the targets `d` with
`p key d`, the other lists being untouched. -/
def pruneOn (p : String → String → Bool) (done : List String)
    (deps : List (String × List String)) : List (String × List String) :=
  deps.map fun e => (e.1, if e.1 ∈ done then e.2.filter (p e.1) else e.2)

/-- The memo is sound for the graph `deps`: a recorded pair `(c, d)` has no path from `c`
to `d`. -/
def MemoSound (deps : List (String × List String)) (noPath : List (String × String)) : Prop :=
  ∀ c d, (c, d) ∈ noPath → ¬ Reach deps c d

/-- The repository groups partition the node set: the keys are distinct, every group is
duplicate-free and holds only observed nodes whose repository key is the key of the group,
and every observed node is in the group of its repository key. -/
def ReposOk (s : state) : Prop :=
  (keys s.repos).Nodup ∧
    (∀ k g, lookup s.repos k = some g → g.Nodup ∧ ∀ n ∈ g, n ∈ s.seen ∧ k = (Cut n '/').1) ∧
    ∀ n ∈ s.seen, ∃ g, lookup s.repos (Cut n '/').1 = some g ∧ n ∈ g

/-- The worked example of the specification: the edges `A/x → A/y`, `A/y → A/z` and
`A/x → A/z`. -/
def specExample : List (String × String) :=
  [("A/x", "A/y"), ("A/y", "A/z"), ("A/x", "A/z")]

/-- The state the worked example is reduced to. -/
def specReduced : state :=
  { deps := [("A/x", ["A/y"]), ("A/y", ["A/z"])]
    seen := ["A/x", "A/y", "A/z"]
    repos := [("A", ["A/x", "A/y", "A/z"])] }

/-- The store invariant: every key of the adjacency map and every node on an adjacency
list is in `seen`. -/
def StoreOk (s : state) : Prop :=
  (∀ k ∈ keys s.deps, k ∈ s.seen) ∧ ∀ x ∈ targets s.deps, x ∈ s.seen

/-- The line, once its surrounding white space is trimmed, is made of two non-empty parts
without the blank U+0020, with exactly one blank between them.  A part is what
`strings.Split(line, " ")` delivers: it may hold other white space, such as a tab, so it
need not be a single white-space-separated token. -/
def TwoParts (text : String) : Prop :=
  ∃ t1 t2 : List Char, t1 ≠ [] ∧ t2 ≠ [] ∧ ' ' ∉ t1 ∧ ' ' ∉ t2 ∧
    (TrimSpace text).data = t1 ++ ' ' :: t2

/-- The white-space-separated tokens found in `rest`, after the token `cur` that is being
read. -/
def fieldsFrom : List Char → List Char → List (List Char)
  | cur, [] => if cur = [] then [] else [cur]
  | cur, c :: rest =>
    if IsSpace c then
      if cur = [] then fieldsFrom [] rest else cur :: fieldsFrom [] rest
    else fieldsFrom (cur ++ [c]) rest

/-- The tokens of a line as the specification counts them, "whitespace-separated tokens":
the maximal runs of characters that are not white space (Go's `strings.Fields`). -/
def Fields (s : String) : List String :=
  (fieldsFrom [] s.data).map String.mk

/-! ## Maps: reading and writing -/

theorem lookup_assign_self (m : List (String × List String)) (k : String) (v : List String) :
    lookup (assign m k v) k = some v := by
  induction m with
  | nil => simp [assign, lookup]
  | cons e rest ih =>
    obtain ⟨k1, w⟩ := e
    by_cases h : k1 = k
    · simp [assign, lookup, h]
    · simp [assign, lookup, h, ih]

theorem lookup_assign_ne (m : List (String × List String)) (k k1 : String) (v : List String)
    (h : k1 ≠ k) : lookup (assign m k v) k1 = lookup m k1 := by
  induction m with
  | nil => simp [assign, lookup, Ne.symm h]
  | cons e rest ih =>
    obtain ⟨k2, w⟩ := e
    by_cases h2 : k2 = k
    · subst h2
      simp [assign, lookup, Ne.symm h]
    · by_cases h3 : k2 = k1
      · subst h3
        simp [assign, lookup, h2]
      · simp [assign, lookup, h2, h3, ih]

theorem index_assign_self (m : List (String × List String)) (k : String) (v : List String) :
    index (assign m k v) k = v := by
  simp [index, lookup_assign_self]

theorem index_assign_ne (m : List (String × List String)) (k k1 : String) (v : List String)
    (h : k1 ≠ k) : index (assign m k v) k1 = index m k1 := by
  simp [index, lookup_assign_ne m k k1 v h]

theorem lookup_eq_none_iff (m : List (String × List String)) (k : String) :
    lookup m k = none ↔ k ∉ keys m := by
  induction m with
  | nil => simp [lookup, keys]
  | cons e rest ih =>
    obtain ⟨k1, w⟩ := e
    by_cases h : k1 = k
    · simp [lookup, keys, h]
    · have h1 : ¬ k = k1 := fun e => h e.symm
      simp [lookup, h, h1, keys] at ih ⊢
      exact ih

theorem mem_keys_of_lookup {m : List (String × List String)} {k : String} {v : List String}
    (h : lookup m k = some v) : k ∈ keys m := by
  by_contra hk
  rw [(lookup_eq_none_iff m k).mpr hk] at h
  cases h

theorem keys_assign_of_mem (m : List (String × List String)) (k : String) (v : List String)
    (h : k ∈ keys m) : keys (assign m k v) = keys m := by
  induction m with
  | nil => simp [keys] at h
  | cons e rest ih =>
    obtain ⟨k1, w⟩ := e
    by_cases h1 : k1 = k
    · simp [assign, keys, h1]
    · have h2 : k ∈ keys rest := by
        simp [keys] at h
        rcases h with h | h
        · exact absurd h.symm h1
        · simpa [keys] using h
      have := ih h2
      simp [assign, keys, h1] at this ⊢
      exact this

theorem keys_assign_of_not_mem (m : List (String × List String)) (k : String) (v : List String)
    (h : k ∉ keys m) : keys (assign m k v) = keys m ++ [k] := by
  induction m with
  | nil => simp [keys, assign]
  | cons e rest ih =>
    obtain ⟨k1, w⟩ := e
    have h1 : k1 ≠ k := by
      intro e
      apply h
      simp [keys, e]
    have h2 : k ∉ keys rest := by
      intro hk
      apply h
      simp [keys] at hk ⊢
      exact Or.inr hk
    have := ih h2
    simp [assign, keys, h1] at this ⊢
    exact this

theorem mem_targets_of_lookup {m : List (String × List String)} {k : String} {v : List String}
    (h : lookup m k = some v) {x : String} (hx : x ∈ v) : x ∈ targets m := by
  induction m with
  | nil => simp [lookup] at h
  | cons e rest ih =>
    obtain ⟨k1, w⟩ := e
    by_cases h1 : k1 = k
    · simp [lookup, h1] at h
      subst h
      simp [targets, hx]
    · simp [lookup, h1] at h
      have := ih h
      simp [targets] at this ⊢
      exact Or.inr this

theorem mem_targets_of_edge {m : List (String × List String)} {a b : String}
    (h : Edge m a b) : b ∈ targets m := by
  unfold Edge index at h
  cases hl : lookup m a with
  | none => simp [hl] at h
  | some v =>
    rw [hl] at h
    exact mem_targets_of_lookup hl h

/-! ## Reachability and ranks -/

theorem Reach.mono {g h : List (String × List String)}
    (hsub : ∀ a b, Edge g a b → Edge h a b) {a b : String} (hab : Reach g a b) :
    Reach h a b :=
  Relation.TransGen.mono hsub hab

theorem rank_lt_of_reach {g : List (String × List String)} {rank : String → Nat}
    (hrank : ∀ a b, Edge g a b → rank b < rank a) {a b : String} (hab : Reach g a b) :
    rank b < rank a := by
  induction hab with
  | single h => exact hrank _ _ h
  | tail _ h ih => exact lt_trans (hrank _ _ h) ih

theorem acyclic_of_rank {g : List (String × List String)} (rank : String → Nat)
    (hrank : ∀ a b, Edge g a b → rank b < rank a) : Acyclic g := by
  intro a h
  exact lt_irrefl _ (rank_lt_of_reach hrank h)

/-- An acyclic adjacency map has a rank that strictly decreases along every edge and is
bounded by the number of stored targets. -/
theorem exists_rank (g : List (String × List String)) (hg : Acyclic g) :
    ∃ rank : String → Nat,
      (∀ a b, Edge g a b → rank b < rank a) ∧ ∀ a, rank a ≤ (targets g).length := by
  classical
  refine ⟨fun x => ((targets g).toFinset.filter fun y => Reach g x y).card, ?_, ?_⟩
  · intro a b hab
    apply Finset.card_lt_card
    rw [Finset.ssubset_iff_of_subset]
    · refine ⟨b, ?_, ?_⟩
      · simp only [Finset.mem_filter, List.mem_toFinset]
        exact ⟨mem_targets_of_edge hab, Relation.TransGen.single hab⟩
      · simp only [Finset.mem_filter, List.mem_toFinset, not_and]
        intro _ hbb
        exact hg b hbb
    · intro y hy
      simp only [Finset.mem_filter, List.mem_toFinset] at hy ⊢
      exact ⟨hy.1, Relation.TransGen.head hab hy.2⟩
  · intro a
    exact le_trans (Finset.card_filter_le _ _) (List.toFinset_card_le _)

/-- Along a path of `g` every edge lies between the ranks of the two ends, so a transitive
relation that holds on all such edges holds between the ends. -/
theorem reach_lift {g : List (String × List String)} {rank : String → Nat}
    (hrank : ∀ a b, Edge g a b → rank b < rank a) (R : String → String → Prop)
    (htrans : ∀ x y z, R x y → R y z → R x z) (U L : Nat)
    (hedge : ∀ x y, Edge g x y → rank x ≤ U → L ≤ rank y → R x y)
    {c b : String} (hcb : Reach g c b) (hU : rank c ≤ U) (hL : L ≤ rank b) : R c b := by
  induction hcb with
  | single h => exact hedge _ _ h hU hL
  | @tail y z hcy hyz ih =>
    have h1 : rank z < rank y := hrank _ _ hyz
    have h2 : rank y < rank c := rank_lt_of_reach hrank hcy
    exact htrans _ _ _ (ih (by omega)) (hedge _ _ hyz (by omega) hL)

/-- If below rank `K` every edge of `g` is either still in `cur` or has a detour in `g`,
then below rank `K` every edge of `g` is matched by a path of `cur`. -/
theorem reach_edge_of_inv {g cur : List (String × List String)} {rank : String → Nat}
    (hrank : ∀ a b, Edge g a b → rank b < rank a) (K : Nat)
    (hinv : ∀ a b, rank a < K → Edge g a b → Edge cur a b ∨ Detour g a b) :
    ∀ n a b, rank a < K → rank a - rank b ≤ n → Edge g a b → Reach cur a b := by
  intro n
  induction n with
  | zero =>
    intro a b _ hn hab
    have := hrank _ _ hab
    omega
  | succ n ih =>
    intro a b hK hn hab
    rcases hinv a b hK hab with h | ⟨c, hac, hcb⟩
    · exact Relation.TransGen.single h
    · have h1 : rank c < rank a := hrank _ _ hac
      have h2 : rank b < rank c := rank_lt_of_reach hrank hcb
      have hfirst : Reach cur a c := ih a c hK (by omega) hac
      have hrest : Reach cur c b :=
        reach_lift hrank (Reach cur) (fun _ _ _ => Relation.TransGen.trans) (rank c) (rank b)
          (fun x y hxy hx hy => ih x y (by omega) (by omega) hxy) hcb le_rfl le_rfl
      exact Relation.TransGen.trans hfirst hrest

/-- Under the hypothesis of `reach_edge_of_inv`, reachability in `g` from a node below
rank `K` is reachability in `cur`. -/
theorem reach_of_inv {g cur : List (String × List String)} {rank : String → Nat}
    (hrank : ∀ a b, Edge g a b → rank b < rank a) (K : Nat)
    (hinv : ∀ a b, rank a < K → Edge g a b → Edge cur a b ∨ Detour g a b)
    {a b : String} (hK : rank a < K) (hab : Reach g a b) : Reach cur a b :=
  reach_lift hrank (Reach cur) (fun _ _ _ => Relation.TransGen.trans) (rank a) 0
    (fun x y hxy hx _ => reach_edge_of_inv hrank K hinv (rank x) x y (by omega) (by omega) hxy)
    hab le_rfl (Nat.zero_le _)

/-! ## The breadth expansion -/

theorem expand_none {deps : List (String × List String)} {noPath : List (String × String)}
    {d : String} : ∀ (children next : List String),
      expand deps noPath d children next = none → d ∈ children := by
  intro children
  induction children with
  | nil => intro next h; simp [expand] at h
  | cons c cs ih =>
    intro next h
    by_cases hc : c = d
    · simp [hc]
    · by_cases hm : (c, d) ∈ noPath
      · simp only [expand, hc, hm, if_true, if_false] at h
        exact List.mem_cons_of_mem _ (ih _ h)
      · simp only [expand, hc, hm, if_false] at h
        exact List.mem_cons_of_mem _ (ih _ h)

theorem expand_some {deps : List (String × List String)} {noPath : List (String × String)}
    {d : String} : ∀ (children next r : List String),
      expand deps noPath d children next = some r →
        d ∉ children ∧ (∀ x ∈ next, x ∈ r) ∧
        (∀ c ∈ children, (c, d) ∈ noPath ∨ ∀ y, Edge deps c y → y ∈ r) ∧
        (∀ x ∈ r, x ∈ next ∨ ∃ c ∈ children, Edge deps c x) := by
  intro children
  induction children with
  | nil =>
    intro next r h
    simp only [expand, Option.some.injEq] at h
    subst h
    simp
  | cons c cs ih =>
    intro next r h
    by_cases hc : c = d
    · simp [expand, hc] at h
    · by_cases hm : (c, d) ∈ noPath
      · simp only [expand, hc, hm, if_true, if_false] at h
        obtain ⟨h1, h2, h3, h4⟩ := ih _ _ h
        refine ⟨?_, h2, ?_, ?_⟩
        · simp only [List.mem_cons, not_or]
          exact ⟨fun e => hc e.symm, h1⟩
        · intro x hx
          rcases List.mem_cons.mp hx with e | hx
          · subst e; exact Or.inl hm
          · exact h3 x hx
        · intro x hx
          rcases h4 x hx with hx | ⟨c1, hc1, he⟩
          · exact Or.inl hx
          · exact Or.inr ⟨c1, List.mem_cons_of_mem _ hc1, he⟩
      · simp only [expand, hc, hm, if_false] at h
        obtain ⟨h1, h2, h3, h4⟩ := ih _ _ h
        refine ⟨?_, ?_, ?_, ?_⟩
        · simp only [List.mem_cons, not_or]
          exact ⟨fun e => hc e.symm, h1⟩
        · intro x hx
          exact h2 x (List.mem_append_left _ hx)
        · intro x hx
          rcases List.mem_cons.mp hx with e | hx
          · subst e
            exact Or.inr fun y hy => h2 y (List.mem_append_right _ hy)
          · exact h3 x hx
        · intro x hx
          rcases h4 x hx with hx | ⟨c1, hc1, he⟩
          · rcases List.mem_append.mp hx with hx | hx
            · exact Or.inl hx
            · exact Or.inr ⟨c, List.mem_cons_self _ _, hx⟩
          · exact Or.inr ⟨c1, List.mem_cons_of_mem _ hc1, he⟩

/-- A successful search has met `d` at the end of a path from one of the seeds. -/
theorem search_found {deps : List (String × List String)} {noPath : List (String × String)}
    {d : String} : ∀ (fuel : Nat) (children touched : List String),
      search deps noPath d fuel children touched = some Outcome.found →
        ∃ c ∈ children, c = d ∨ Reach deps c d := by
  intro fuel
  induction fuel with
  | zero =>
    intro children touched h
    cases children <;> simp [search] at h
  | succ fuel ih =>
    intro children touched h
    cases children with
    | nil => simp [search] at h
    | cons c cs =>
      simp only [search] at h
      cases he : expand deps noPath d (c :: cs) [] with
      | none => exact ⟨d, expand_none _ _ he, Or.inl rfl⟩
      | some next =>
        rw [he] at h
        obtain ⟨x, hx, hxd⟩ := ih _ _ h
        obtain ⟨_, _, _, h4⟩ := expand_some _ _ _ he
        rcases h4 x hx with hx | ⟨c1, hc1, hedge⟩
        · simp at hx
        · refine ⟨c1, hc1, Or.inr ?_⟩
          rcases hxd with e | hr
          · subst e; exact Relation.TransGen.single hedge
          · exact Relation.TransGen.head hedge hr

/-- A failed search: `touched` grows to a set `T` that contains the seeds, does not
contain `d`, in which every new node is either recorded in the memo or has all its targets
in `T`, and which stays inside every edge-closed property of the seeds. -/
theorem search_exhausted {deps : List (String × List String)}
    {noPath : List (String × String)} {d : String} :
    ∀ (fuel : Nat) (children touched T : List String),
      search deps noPath d fuel children touched = some (Outcome.exhausted T) →
        (∀ t ∈ touched, t ∈ T) ∧ (∀ c ∈ children, c ∈ T) ∧
        (∀ t ∈ T, t ∈ touched ∨ (t ≠ d ∧ ((t, d) ∈ noPath ∨ ∀ y, Edge deps t y → y ∈ T))) ∧
        (∀ P : String → Prop, (∀ t ∈ touched, P t) → (∀ c ∈ children, P c) →
          (∀ x y, P x → Edge deps x y → P y) → ∀ t ∈ T, P t) := by
  intro fuel
  induction fuel with
  | zero =>
    intro children touched T h
    cases children with
    | nil =>
      simp only [search, Option.some.injEq, Outcome.exhausted.injEq] at h
      subst h
      simp +contextual
    | cons c cs => simp [search] at h
  | succ fuel ih =>
    intro children touched T h
    cases children with
    | nil =>
      simp only [search, Option.some.injEq, Outcome.exhausted.injEq] at h
      subst h
      simp +contextual
    | cons c cs =>
      simp only [search] at h
      cases he : expand deps noPath d (c :: cs) [] with
      | none => rw [he] at h; simp at h
      | some next =>
        rw [he] at h
        obtain ⟨i1, i2, i3, i4⟩ := ih _ _ _ h
        obtain ⟨e1, _, e3, e4⟩ := expand_some _ _ _ he
        refine ⟨?_, ?_, ?_, ?_⟩
        · intro t ht
          exact i1 t (List.mem_append_left _ ht)
        · intro t ht
          exact i1 t (List.mem_append_right _ ht)
        · intro t ht
          rcases i3 t ht with h1 | h1
          · rcases List.mem_append.mp h1 with h1 | h1
            · exact Or.inl h1
            · refine Or.inr ⟨fun e => e1 (e ▸ h1), ?_⟩
              rcases e3 t h1 with h2 | h2
              · exact Or.inl h2
              · exact Or.inr fun y hy => i2 y (h2 y hy)
          · exact Or.inr h1
        · intro P hP1 hP2 hP3 t ht
          apply i4 P _ _ hP3 t ht
          · intro x hx
            rcases List.mem_append.mp hx with hx | hx
            · exact hP1 x hx
            · exact hP2 x hx
          · intro x hx
            rcases e4 x hx with hx | ⟨c1, hc1, hedge⟩
            · simp at hx
            · exact hP3 c1 x (hP2 c1 hc1) hedge

/-- With a rank that decreases along the edges and fuel above the rank of every seed, the
search ends. -/
theorem search_terminates {deps : List (String × List String)}
    {noPath : List (String × String)} {d : String} {rank : String → Nat}
    (hrank : ∀ a b, Edge deps a b → rank b < rank a) :
    ∀ (fuel : Nat) (children touched : List String), (∀ c ∈ children, rank c < fuel) →
      ∃ o, search deps noPath d fuel children touched = some o := by
  intro fuel
  induction fuel with
  | zero =>
    intro children touched h
    cases children with
    | nil => exact ⟨_, rfl⟩
    | cons c cs => exact absurd (h c (List.mem_cons_self _ _)) (Nat.not_lt_zero _)
  | succ fuel ih =>
    intro children touched h
    cases children with
    | nil => exact ⟨_, rfl⟩
    | cons c cs =>
      simp only [search]
      cases he : expand deps noPath d (c :: cs) [] with
      | none => exact ⟨_, rfl⟩
      | some next =>
        apply ih
        intro x hx
        obtain ⟨_, _, _, e4⟩ := expand_some _ _ _ he
        rcases e4 x hx with hx | ⟨c1, hc1, hedge⟩
        · simp at hx
        · have := hrank _ _ hedge
          have := h c1 hc1
          omega

/-! ## One candidate edge, one node -/

theorem mem_drop_of_le {l : List String} {k n : Nat} (hkn : k ≤ n) {x : String}
    (hx : x ∈ l.drop n) : x ∈ l.drop k := by
  have e : l.drop n = (l.drop k).drop (n - k) := by
    rw [List.drop_drop]
    congr 1
    omega
  rw [e] at hx
  exact List.mem_of_mem_drop hx

/-- The closure decides the candidate edge `(m, d)` correctly: it answers "delete" exactly
when the original graph `g` has a detour from `m` to `d`, and it keeps the memo sound.
Here `cur` is the partly reduced map and `view` what the backing array of the list of `m`
shows: only targets of `m`, and every target of `m` that has no detour. -/
theorem redundant_spec {g cur : List (String × List String)} {rank : String → Nat}
    (hrank : ∀ a b, Edge g a b → rank b < rank a) {fuel : Nat} (hfuel : ∀ a, rank a ≤ fuel)
    (hsub : ∀ a b, Edge cur a b → Edge g a b)
    (hinv : ∀ a b, Edge g a b → Edge cur a b ∨ Detour g a b)
    {m : String} {p : String → Bool} (hp : ∀ d, p d = true ↔ ¬ Detour g m d)
    {view : List String} (hview : ∀ c ∈ view, Edge g m c)
    (hcov : ∀ c, Edge g m c → c ∈ view ∨ Detour g m c)
    {noPath : List (String × String)} (hmemo : MemoSound g noPath) (d : String) :
    ∃ noPath1, redundant fuel (assign cur m view) noPath view d = some (!p d, noPath1) ∧
      MemoSound g noPath1 := by
  have hsubv : ∀ a b, Edge (assign cur m view) a b → Edge g a b := by
    intro a b hab
    unfold Edge at hab
    by_cases ha : a = m
    · subst ha
      rw [index_assign_self] at hab
      exact hview b hab
    · rw [index_assign_ne _ _ _ _ ha] at hab
      exact hsub a b hab
  have hrankv : ∀ a b, Edge (assign cur m view) a b → rank b < rank a :=
    fun a b hab => hrank a b (hsubv a b hab)
  have hinvv : ∀ a b, rank a < rank m → Edge g a b →
      Edge (assign cur m view) a b ∨ Detour g a b := by
    intro a b ha hab
    have hne : a ≠ m := fun e => by subst e; exact lt_irrefl _ ha
    rcases hinv a b hab with h | h
    · left
      unfold Edge
      rw [index_assign_ne _ _ _ _ hne]
      exact h
    · exact Or.inr h
  have hseed : ∀ c ∈ view.filter (fun c => c != d), c ∈ view ∧ c ≠ d := by
    intro c hc
    simpa using hc
  have hterm : ∃ o, search (assign cur m view) noPath d fuel
      (view.filter fun c => c != d) [] = some o := by
    apply search_terminates hrankv
    intro c hc
    have h1 := hrank _ _ (hview c (hseed c hc).1)
    have h2 := hfuel m
    omega
  obtain ⟨o, ho⟩ := hterm
  cases o with
  | found =>
    obtain ⟨c, hc, hcd⟩ := search_found _ _ _ ho
    have hdet : Detour g m d := by
      refine ⟨c, hview c (hseed c hc).1, ?_⟩
      rcases hcd with e | hr
      · exact absurd e (hseed c hc).2
      · exact Reach.mono hsubv hr
    have hpd : p d = false := by
      cases hpd : p d with
      | false => rfl
      | true => exact absurd hdet ((hp d).mp hpd)
    exact ⟨noPath, by simp [redundant, ho, hpd], hmemo⟩
  | exhausted T =>
    obtain ⟨_, s2, s3, s4⟩ := search_exhausted _ _ _ _ ho
    have hT : ∀ t ∈ T, t ≠ d ∧
        ((t, d) ∈ noPath ∨ ∀ y, Edge (assign cur m view) t y → y ∈ T) := by
      intro t ht
      rcases s3 t ht with h | h
      · simp at h
      · exact h
    have hTrank : ∀ t ∈ T, rank t < rank m := by
      apply s4 (fun x => rank x < rank m)
      · intro t ht; simp at ht
      · intro c hc
        exact hrank _ _ (hview c (hseed c hc).1)
      · intro x y hx hxy
        exact lt_trans (hrankv x y hxy) hx
    have claimA : ∀ t, Reach (assign cur m view) t d → t ∉ T := by
      intro t ht
      induction ht using Relation.TransGen.head_induction_on with
      | base hedge =>
        intro htT
        rcases (hT _ htT).2 with h | h
        · exact hmemo _ _ h (Relation.TransGen.single (hsubv _ _ hedge))
        · exact (hT d (h d hedge)).1 rfl
      | ih hedge hrest ih =>
        intro htT
        rcases (hT _ htT).2 with h | h
        · exact hmemo _ _ h
            (Relation.TransGen.head (hsubv _ _ hedge) (Reach.mono hsubv hrest))
        · exact ih (h _ hedge)
    have claimB : ∀ t ∈ T, ¬ Reach g t d := by
      intro t ht hr
      exact claimA t (reach_of_inv hrank (rank m) hinvv (hTrank t ht) hr) ht
    have claimC : ∀ n c, Edge g m c → rank m - rank c ≤ n → ¬ Reach g c d := by
      intro n
      induction n with
      | zero =>
        intro c hc hn
        have := hrank _ _ hc
        omega
      | succ n ih =>
        intro c hc hn hr
        rcases hcov c hc with hv | ⟨c1, hc1, hr1⟩
        · by_cases hcd : c = d
          · subst hcd
            exact lt_irrefl _ (rank_lt_of_reach hrank hr)
          · have hmem : c ∈ view.filter (fun c => c != d) := by
              simp [hv, hcd]
            exact claimB c (s2 c hmem) hr
        · have h1 := rank_lt_of_reach hrank hr1
          have h2 := hrank _ _ hc1
          exact ih c1 hc1 (by omega) (Relation.TransGen.trans hr1 hr)
    have hnd : ¬ Detour g m d := by
      rintro ⟨c, hc, hr⟩
      exact claimC (rank m) c hc (Nat.sub_le _ _) hr
    have hpd : p d = true := (hp d).mpr hnd
    refine ⟨record noPath T d, by simp [redundant, ho, hpd], ?_⟩
    intro c1 d1 hmem
    unfold record at hmem
    rcases List.mem_append.mp hmem with h | h
    · exact hmemo _ _ h
    · simp only [List.mem_map, Prod.mk.injEq] at h
      obtain ⟨t, ht, e1, e2⟩ := h
      subst e1 e2
      exact claimB t ht

/-- The in-place `DeleteFunc` on the list `orig` of `m` keeps exactly the targets without a
detour in the original graph, in their order, whatever the backing array shows meanwhile. -/
theorem DeleteFunc_spec {g cur : List (String × List String)} {rank : String → Nat}
    (hrank : ∀ a b, Edge g a b → rank b < rank a) {fuel : Nat} (hfuel : ∀ a, rank a ≤ fuel)
    (hsub : ∀ a b, Edge cur a b → Edge g a b)
    (hinv : ∀ a b, Edge g a b → Edge cur a b ∨ Detour g a b)
    {m : String} {p : String → Bool} (hp : ∀ d, p d = true ↔ ¬ Detour g m d) :
    ∀ (todo done kept : List String) (noPath : List (String × String)),
      index g m = done ++ todo → kept = done.filter p → MemoSound g noPath →
        ∃ noPath1, DeleteFunc fuel cur m (index g m) todo kept noPath =
            some (kept ++ todo.filter p, noPath1) ∧ MemoSound g noPath1 := by
  intro todo
  induction todo with
  | nil =>
    intro done kept noPath _ _ hmemo
    exact ⟨noPath, by simp [DeleteFunc], hmemo⟩
  | cons d todo ih =>
    intro done kept noPath horig hkept hmemo
    have hlen : kept.length ≤ done.length := by
      rw [hkept]
      exact List.length_filter_le _ _
    have hview : ∀ c ∈ kept ++ (index g m).drop kept.length, Edge g m c := by
      intro c hc
      unfold Edge
      rcases List.mem_append.mp hc with h | h
      · rw [hkept] at h
        rw [horig]
        exact List.mem_append_left _ (List.mem_filter.mp h).1
      · exact List.mem_of_mem_drop h
    have hcov : ∀ c, Edge g m c →
        c ∈ kept ++ (index g m).drop kept.length ∨ Detour g m c := by
      intro c hc
      unfold Edge at hc
      rw [horig] at hc
      rcases List.mem_append.mp hc with h | h
      · cases hpc : p c with
        | true =>
          left
          apply List.mem_append_left
          rw [hkept]
          exact List.mem_filter.mpr ⟨h, hpc⟩
        | false =>
          right
          by_contra hnd
          rw [(hp c).mpr hnd] at hpc
          cases hpc
      · left
        apply List.mem_append_right
        apply mem_drop_of_le hlen
        rw [horig, List.drop_left]
        exact h
    obtain ⟨noPath1, hred, hmemo1⟩ :=
      redundant_spec hrank hfuel hsub hinv hp hview hcov hmemo d
    have horig1 : index g m = (done ++ [d]) ++ todo := by
      rw [horig]; simp
    cases hpd : p d with
    | true =>
      rw [hpd] at hred
      have hkept1 : kept ++ [d] = (done ++ [d]).filter p := by
        rw [hkept]; simp [List.filter_append, hpd]
      obtain ⟨noPath2, hrun, hmemo2⟩ := ih (done ++ [d]) (kept ++ [d]) noPath1 horig1 hkept1 hmemo1
      refine ⟨noPath2, ?_, hmemo2⟩
      simp only [DeleteFunc, hred, Bool.not_true]
      rw [hrun]
      simp [List.filter_cons, hpd]
    | false =>
      rw [hpd] at hred
      have hkept1 : kept = (done ++ [d]).filter p := by
        rw [hkept]; simp [List.filter_append, hpd]
      obtain ⟨noPath2, hrun, hmemo2⟩ := ih (done ++ [d]) kept noPath1 horig1 hkept1 hmemo1
      refine ⟨noPath2, ?_, hmemo2⟩
      simp only [DeleteFunc, hred, Bool.not_false]
      rw [hrun]
      simp [List.filter_cons, hpd]

/-! ## Pruned maps -/

theorem keys_pruneOn (p : String → String → Bool) (done : List String)
    (deps : List (String × List String)) : keys (pruneOn p done deps) = keys deps := by
  simp [keys, pruneOn, List.map_map, Function.comp_def]

theorem lookup_pruneOn (p : String → String → Bool) (done : List String)
    (deps : List (String × List String)) (k : String) :
    lookup (pruneOn p done deps) k =
      (lookup deps k).map fun v => if k ∈ done then v.filter (p k) else v := by
  induction deps with
  | nil => simp [pruneOn, lookup]
  | cons e rest ih =>
    obtain ⟨k1, w⟩ := e
    by_cases h : k1 = k
    · subst h
      simp [pruneOn, lookup]
    · have ih1 : lookup (List.map (fun e => (e.1, if e.1 ∈ done then e.2.filter (p e.1) else e.2))
          rest) k = (lookup rest k).map fun v => if k ∈ done then v.filter (p k) else v := ih
      simp [pruneOn, lookup, h, ih1]

theorem index_pruneOn (p : String → String → Bool) (done : List String)
    (deps : List (String × List String)) (k : String) :
    index (pruneOn p done deps) k =
      if k ∈ done then (index deps k).filter (p k) else index deps k := by
  unfold index
  rw [lookup_pruneOn]
  cases lookup deps k <;> simp

theorem pruneOn_congr (p : String → String → Bool) (d1 d2 : List String)
    (deps : List (String × List String)) (h : ∀ k ∈ keys deps, (k ∈ d1 ↔ k ∈ d2)) :
    pruneOn p d1 deps = pruneOn p d2 deps := by
  unfold pruneOn
  apply List.map_congr_left
  intro e he
  have hk : e.1 ∈ keys deps := List.mem_map_of_mem Prod.fst he
  by_cases h1 : e.1 ∈ d1
  · simp [h1, (h _ hk).mp h1]
  · have h2 : e.1 ∉ d2 := fun x => h1 ((h _ hk).mpr x)
    simp [h1, h2]

theorem pruneOn_nil (p : String → String → Bool) (deps : List (String × List String)) :
    pruneOn p [] deps = deps := by
  unfold pruneOn
  simp

/-- Storing the pruned list of a fresh key `m` in a map pruned on `done` gives the map
pruned on `m :: done`. -/
theorem assign_pruneOn (p : String → String → Bool) (done : List String) (m : String)
    (deps : List (String × List String)) (hnd : (keys deps).Nodup) (hm : m ∈ keys deps) :
    assign (pruneOn p done deps) m ((index deps m).filter (p m)) =
      pruneOn p (m :: done) deps := by
  induction deps with
  | nil => simp [keys] at hm
  | cons e rest ih =>
    obtain ⟨k1, w⟩ := e
    have hnd1 : k1 ∉ keys rest ∧ (keys rest).Nodup := by
      simpa [keys] using hnd
    by_cases h : k1 = m
    · subst h
      have hrest : pruneOn p done rest = pruneOn p (k1 :: done) rest := by
        apply pruneOn_congr
        intro k hk
        have : k ≠ k1 := fun e => hnd1.1 (e ▸ hk)
        simp [this]
      have hrest1 : List.map (fun e => (e.1, if e.1 ∈ done then e.2.filter (p e.1) else e.2)) rest
          = List.map (fun e => (e.1, if e.1 ∈ k1 :: done then e.2.filter (p e.1) else e.2)) rest :=
        hrest
      simp [pruneOn, assign, index, lookup, hrest1]
    · have hm1 : m ∈ keys rest := by
        simp [keys] at hm
        rcases hm with hm | hm
        · exact absurd hm.symm h
        · simpa [keys] using hm
      have ih1 := ih hnd1.2 hm1
      have hidx : index ((k1, w) :: rest) m = index rest m := by
        simp [index, lookup, h]
      have hk1 : (k1 ∈ m :: done) ↔ k1 ∈ done := by
        simp [h]
      rw [hidx]
      unfold pruneOn at ih1 ⊢
      simp only [List.map_cons, assign, h, if_false, hk1]
      rw [ih1]

/-! ## The whole reduction -/

theorem edge_pruneOn_sub (p : String → String → Bool) (done : List String)
    (g : List (String × List String)) (a b : String) (h : Edge (pruneOn p done g) a b) :
    Edge g a b := by
  unfold Edge at h ⊢
  rw [index_pruneOn] at h
  by_cases ha : a ∈ done
  · rw [if_pos ha] at h
    exact (List.mem_filter.mp h).1
  · rw [if_neg ha] at h
    exact h

theorem edge_pruneOn_inv {p : String → String → Bool} {g : List (String × List String)}
    (hp : ∀ m d, p m d = true ↔ ¬ Detour g m d) (done : List String) (a b : String)
    (h : Edge g a b) : Edge (pruneOn p done g) a b ∨ Detour g a b := by
  by_cases hd : Detour g a b
  · exact Or.inr hd
  · left
    unfold Edge at h ⊢
    rw [index_pruneOn]
    by_cases ha : a ∈ done
    · rw [if_pos ha]
      exact List.mem_filter.mpr ⟨h, (hp a b).mpr hd⟩
    · rw [if_neg ha]
      exact h

/-- The loop over the nodes, started on the map already pruned on `done`, prunes the nodes
of `rest` as well and keeps the memo sound. -/
theorem reduceNodes_spec {g : List (String × List String)} {rank : String → Nat}
    (hrank : ∀ a b, Edge g a b → rank b < rank a) {fuel : Nat} (hfuel : ∀ a, rank a ≤ fuel)
    (hnd : (keys g).Nodup) {p : String → String → Bool}
    (hp : ∀ m d, p m d = true ↔ ¬ Detour g m d) :
    ∀ (rest done : List String) (noPath : List (String × String)),
      rest.Nodup → (∀ x ∈ rest, x ∉ done) → MemoSound g noPath →
        ∃ noPath1, reduceNodes fuel rest (pruneOn p done g) noPath =
            some (pruneOn p (rest.reverse ++ done) g, noPath1) ∧ MemoSound g noPath1 := by
  intro rest
  induction rest with
  | nil =>
    intro done noPath _ _ hmemo
    exact ⟨noPath, by simp [reduceNodes], hmemo⟩
  | cons m rest ih =>
    intro done noPath hrest hdone hmemo
    have hmd : m ∉ done := hdone m (List.mem_cons_self _ _)
    have hrest1 : m ∉ rest ∧ rest.Nodup := by simpa using hrest
    have hlook : lookup (pruneOn p done g) m = lookup g m := by
      rw [lookup_pruneOn]
      cases lookup g m <;> simp [hmd]
    cases hl : lookup g m with
    | none =>
      have hmk : m ∉ keys g := (lookup_eq_none_iff g m).mp hl
      obtain ⟨noPath1, hrun, hmemo1⟩ := ih done noPath hrest1.2
        (fun x hx => hdone x (List.mem_cons_of_mem _ hx)) hmemo
      refine ⟨noPath1, ?_, hmemo1⟩
      simp only [reduceNodes, hlook, hl]
      rw [hrun]
      congr 2
      apply pruneOn_congr
      intro k hk
      have : k ≠ m := fun e => hmk (e ▸ hk)
      simp [this]
    | some orig =>
      have hmk : m ∈ keys g := mem_keys_of_lookup hl
      have horig : index g m = orig := by simp [index, hl]
      obtain ⟨noPath1, hdel, hmemo1⟩ :=
        DeleteFunc_spec hrank hfuel (edge_pruneOn_sub p done g) (edge_pruneOn_inv hp done)
          (hp m) (index g m) [] [] noPath (by simp) (by simp) hmemo
      have hdone1 : ∀ x ∈ rest, x ∉ m :: done := by
        intro x hx hxm
        rcases List.mem_cons.mp hxm with e | h
        · exact hrest1.1 (e ▸ hx)
        · exact hdone x (List.mem_cons_of_mem _ hx) h
      obtain ⟨noPath2, hrun, hmemo2⟩ := ih (m :: done) noPath1 hrest1.2 hdone1 hmemo1
      refine ⟨noPath2, ?_, hmemo2⟩
      rw [horig] at hdel
      simp only [reduceNodes, hlook, hl, hdel, List.nil_append]
      rw [← horig, assign_pruneOn p done m g hnd hmk, hrun]
      simp

/-- The result of `transitiveReduction` on an acyclic map with distinct keys, for every
visiting order that names each key once and every fuel from the number of stored targets
on: the list of each node keeps exactly the targets without a detour in the original
graph. -/
theorem transitiveReduction_eq (s : state) (hnd : (keys s.deps).Nodup) (hac : Acyclic s.deps)
    (p : String → String → Bool) (hp : ∀ m d, p m d = true ↔ ¬ Detour s.deps m d)
    (fuel : Nat) (hfuel : (targets s.deps).length ≤ fuel)
    (order : List String) (horder : order.Perm (keys s.deps)) :
    s.transitiveReduction fuel order =
      some { s with deps := pruneOn p (keys s.deps) s.deps } := by
  obtain ⟨rank, hrank, hbound⟩ := exists_rank s.deps hac
  have hord : order.Nodup := horder.nodup_iff.mpr hnd
  obtain ⟨noPath1, hrun, _⟩ :=
    reduceNodes_spec hrank (fun a => le_trans (hbound a) hfuel) hnd hp order [] []
      hord (by simp) (by intro c d h; simp at h)
  rw [pruneOn_nil] at hrun
  have hcongr : pruneOn p (order.reverse ++ []) s.deps = pruneOn p (keys s.deps) s.deps := by
    apply pruneOn_congr
    intro k _
    simp [horder.mem_iff]
  unfold state.transitiveReduction
  rw [hrun, hcongr]

/-- A predicate that tells, for every pair, whether the graph has no detour. -/
theorem exists_noDetour (g : List (String × List String)) :
    ∃ p : String → String → Bool, ∀ m d, p m d = true ↔ ¬ Detour g m d := by
  classical
  exact ⟨fun m d => decide (¬ Detour g m d), fun m d => by simp⟩

/-! ## Ingestion: `sawMod`, `add`, `build` -/

theorem sawMod_deps (s : state) (x : String) : (s.sawMod x).deps = s.deps := by
  unfold state.sawMod
  split <;> rfl

theorem mem_seen_sawMod (s : state) (x y : String) :
    y ∈ (s.sawMod x).seen ↔ y ∈ s.seen ∨ y = x := by
  unfold state.sawMod
  by_cases h : x ∈ s.seen
  · simp only [h, if_true]
    constructor
    · exact Or.inl
    · rintro (h1 | h1)
      · exact h1
      · exact h1 ▸ h
  · simp [h]

theorem nodup_seen_sawMod (s : state) (x : String) (h : s.seen.Nodup) :
    (s.sawMod x).seen.Nodup := by
  unfold state.sawMod
  by_cases hx : x ∈ s.seen
  · simpa [hx] using h
  · simp only [hx, if_false]
    rw [List.nodup_append]
    refine ⟨h, List.nodup_singleton _, ?_⟩
    intro a ha hb
    simp at hb
    exact hx (hb ▸ ha)

theorem add_seen (s : state) (a b : String) :
    (s.add a b).seen = ((s.sawMod a).sawMod b).seen := by
  unfold state.add
  simp only
  split
  · split <;> rfl
  · rfl

theorem add_repos (s : state) (a b : String) :
    (s.add a b).repos = ((s.sawMod a).sawMod b).repos := by
  unfold state.add
  simp only
  split
  · split <;> rfl
  · rfl

theorem add_deps (s : state) (a b : String) :
    (s.add a b).deps =
      match lookup s.deps a with
      | some d => if b ∈ d then s.deps else assign s.deps a (d ++ [b])
      | none => assign s.deps a [b] := by
  unfold state.add
  simp only [sawMod_deps]
  cases lookup s.deps a with
  | none => simp [sawMod_deps]
  | some d =>
    by_cases h : b ∈ d
    · simp [h, sawMod_deps]
    · simp [h]

/-- Induction over the states built by `add`. -/
theorem build_induction (P : state → Prop) (h0 : P newState)
    (hadd : ∀ s a b, P s → P (s.add a b)) (edges : List (String × String)) :
    P (build edges) := by
  have key : ∀ (es : List (String × String)) (s0 : state), P s0 →
      P (es.foldl (fun s e => s.add e.1 e.2) s0) := by
    intro es
    induction es with
    | nil => intro s0 h; exact h
    | cons e es ih =>
      intro s0 h
      exact ih _ (hadd s0 e.1 e.2 h)
  exact key edges newState h0

theorem build_append (es : List (String × String)) (a b : String) :
    build (es ++ [(a, b)]) = (build es).add a b := by
  simp [build, List.foldl_append]

theorem keys_add_nodup (s : state) (a b : String) (h : (keys s.deps).Nodup) :
    (keys (s.add a b).deps).Nodup := by
  rw [add_deps]
  cases hl : lookup s.deps a with
  | none =>
    have hk : a ∉ keys s.deps := (lookup_eq_none_iff _ _).mp hl
    simp only
    rw [keys_assign_of_not_mem _ _ _ hk, List.nodup_append]
    refine ⟨h, List.nodup_singleton _, ?_⟩
    intro x hx hb
    simp at hb
    exact hk (hb ▸ hx)
  | some d =>
    simp only
    by_cases hb : b ∈ d
    · simpa [hb] using h
    · simp only [hb, if_false]
      rw [keys_assign_of_mem _ _ _ (mem_keys_of_lookup hl)]
      exact h

theorem keys_build_nodup (edges : List (String × String)) :
    (keys (build edges).deps).Nodup :=
  build_induction (fun s => (keys s.deps).Nodup) (by simp [newState, keys])
    (fun s a b h => keys_add_nodup s a b h) edges

theorem index_add_nodup (s : state) (a b : String) (h : ∀ m, (index s.deps m).Nodup) :
    ∀ m, (index (s.add a b).deps m).Nodup := by
  intro m
  rw [add_deps]
  cases hl : lookup s.deps a with
  | none =>
    simp only
    by_cases hm : m = a
    · subst hm
      rw [index_assign_self]
      exact List.nodup_singleton _
    · rw [index_assign_ne _ _ _ _ hm]
      exact h m
  | some d =>
    simp only
    by_cases hb : b ∈ d
    · simpa [hb] using h m
    · simp only [hb, if_false]
      by_cases hm : m = a
      · subst hm
        rw [index_assign_self]
        have hd : d.Nodup := by
          have := h m
          simpa [index, hl] using this
        rw [List.nodup_append]
        refine ⟨hd, List.nodup_singleton _, ?_⟩
        intro x hx hxb
        simp at hxb
        exact hb (hxb ▸ hx)
      · rw [index_assign_ne _ _ _ _ hm]
        exact h m

theorem index_build_nodup (edges : List (String × String)) :
    ∀ m, (index (build edges).deps m).Nodup :=
  build_induction (fun s => ∀ m, (index s.deps m).Nodup) (by intro m; simp [newState, index, lookup])
    (fun s a b h => index_add_nodup s a b h) edges

theorem add_add (s : state) (a b : String) : (s.add a b).add a b = s.add a b := by
  have ha : a ∈ (s.add a b).seen := by
    rw [add_seen, mem_seen_sawMod, mem_seen_sawMod]
    exact Or.inl (Or.inr rfl)
  have hb : b ∈ (s.add a b).seen := by
    rw [add_seen, mem_seen_sawMod]
    exact Or.inr rfl
  have hl : ∃ d, lookup (s.add a b).deps a = some d ∧ b ∈ d := by
    rw [add_deps]
    cases hl : lookup s.deps a with
    | none => exact ⟨[b], by simp [lookup_assign_self]⟩
    | some d =>
      by_cases hbd : b ∈ d
      · exact ⟨d, by simp [hbd, hl]⟩
      · exact ⟨d ++ [b], by simp [hbd, lookup_assign_self]⟩
  obtain ⟨d, hd, hbd⟩ := hl
  have h1 : (s.add a b).sawMod a = s.add a b := by
    unfold state.sawMod
    simp [ha]
  have h2 : (s.add a b).sawMod b = s.add a b := by
    unfold state.sawMod
    simp [hb]
  generalize s.add a b = t at *
  unfold state.add
  simp only [h1, h2, hd, hbd, if_true]

/-! ## Consequences for the reduced map -/

theorem reach_pruneOn_iff {p : String → String → Bool} {g : List (String × List String)}
    (hac : Acyclic g) (hp : ∀ m d, p m d = true ↔ ¬ Detour g m d) (done : List String)
    (a b : String) : Reach (pruneOn p done g) a b ↔ Reach g a b := by
  constructor
  · exact Reach.mono (edge_pruneOn_sub p done g)
  · intro h
    obtain ⟨rank, hrank, _⟩ := exists_rank g hac
    exact reach_of_inv hrank (rank a + 1) (fun x y _ hxy => edge_pruneOn_inv hp done x y hxy)
      (Nat.lt_succ_self _) h

theorem acyclic_pruneOn {p : String → String → Bool} {g : List (String × List String)}
    (hac : Acyclic g) (done : List String) : Acyclic (pruneOn p done g) :=
  fun a h => hac a (Reach.mono (edge_pruneOn_sub p done g) h)

theorem detour_pruneOn_sub {p : String → String → Bool} {g : List (String × List String)}
    (done : List String) {m d : String} (h : Detour (pruneOn p done g) m d) : Detour g m d := by
  obtain ⟨c, hc, hr⟩ := h
  exact ⟨c, edge_pruneOn_sub p done g _ _ hc, Reach.mono (edge_pruneOn_sub p done g) hr⟩

/-- In the fully pruned map no edge has a detour. -/
theorem no_detour_pruneOn {p : String → String → Bool} {g : List (String × List String)}
    (hp : ∀ m d, p m d = true ↔ ¬ Detour g m d) {m d : String}
    (h : Edge (pruneOn p (keys g) g) m d) : ¬ Detour (pruneOn p (keys g) g) m d := by
  intro hd
  have hd0 : Detour g m d := detour_pruneOn_sub _ hd
  unfold Edge at h
  rw [index_pruneOn] at h
  by_cases hm : m ∈ keys g
  · rw [if_pos hm] at h
    exact (hp m d).mp (List.mem_filter.mp h).2 hd0
  · rw [if_neg hm] at h
    have : lookup g m = none := (lookup_eq_none_iff g m).mpr hm
    simp [index, this] at h

theorem lookup_of_mem {g : List (String × List String)} (hnd : (keys g).Nodup)
    {k : String} {v : List String} (h : (k, v) ∈ g) : lookup g k = some v := by
  induction g with
  | nil => simp at h
  | cons e rest ih =>
    obtain ⟨k1, w⟩ := e
    have hnd1 : k1 ∉ keys rest ∧ (keys rest).Nodup := by simpa [keys] using hnd
    rcases List.mem_cons.mp h with e | h
    · cases e
      simp [lookup]
    · have hk : k ∈ keys rest := List.mem_map_of_mem Prod.fst h
      have hne : k1 ≠ k := fun e => hnd1.1 (e ▸ hk)
      simp [lookup, hne, ih hnd1.2 h]

theorem pruneOn_eq_self {p : String → String → Bool} {g : List (String × List String)}
    (hnd : (keys g).Nodup) (h : ∀ m d, Edge g m d → p m d = true) (done : List String) :
    pruneOn p done g = g := by
  unfold pruneOn
  conv_rhs => rw [← List.map_id g]
  apply List.map_congr_left
  intro e he
  obtain ⟨k, v⟩ := e
  have hl : lookup g k = some v := lookup_of_mem hnd he
  have hv : v.filter (p k) = v := by
    rw [List.filter_eq_self]
    intro d hd
    apply h
    simp [Edge, index, hl, hd]
  by_cases hk : k ∈ done <;> simp [hk, hv]

/-- A rank that decreases along every stored pair decreases along every edge. -/
theorem edge_rank_of_entries {g : List (String × List String)} {rank : String → Nat}
    (h : ∀ e ∈ g, ∀ b ∈ e.2, rank b < rank e.1) : ∀ a b, Edge g a b → rank b < rank a := by
  intro a b hab
  induction g with
  | nil => simp [Edge, index, lookup] at hab
  | cons e rest ih =>
    obtain ⟨k, v⟩ := e
    by_cases hk : k = a
    · subst hk
      have hb : b ∈ v := by simpa [Edge, index, lookup] using hab
      exact h (k, v) (List.mem_cons_self _ _) b hb
    · apply ih (fun e he => h e (List.mem_cons_of_mem _ he))
      simpa [Edge, index, lookup, hk] using hab

theorem edge_removeEdge {g : List (String × List String)} {m d a b : String}
    (h : Edge (removeEdge g m d) a b) : Edge g a b ∧ ¬ (a = m ∧ b = d) := by
  unfold Edge removeEdge at h
  by_cases ha : a = m
  · subst ha
    rw [index_assign_self] at h
    have := List.mem_filter.mp h
    refine ⟨this.1, ?_⟩
    rintro ⟨_, e⟩
    simp [e] at this
  · rw [index_assign_ne _ _ _ _ ha] at h
    exact ⟨h, fun e => ha e.1⟩

/-- Rank-based form of the characterisation, for a map whose rank is already known. -/
theorem transitiveReduction_eq_rank (s : state) (hnd : (keys s.deps).Nodup)
    {rank : String → Nat} (hrank : ∀ a b, Edge s.deps a b → rank b < rank a)
    (p : String → String → Bool) (hp : ∀ m d, p m d = true ↔ ¬ Detour s.deps m d)
    (fuel : Nat) (hfuel : ∀ a, rank a ≤ fuel)
    (order : List String) (horder : order.Perm (keys s.deps)) :
    s.transitiveReduction fuel order =
      some { s with deps := pruneOn p (keys s.deps) s.deps } := by
  have hord : order.Nodup := horder.nodup_iff.mpr hnd
  obtain ⟨noPath1, hrun, _⟩ :=
    reduceNodes_spec hrank hfuel hnd hp order [] []
      hord (by simp) (by intro c d h; simp at h)
  rw [pruneOn_nil] at hrun
  have hcongr : pruneOn p (order.reverse ++ []) s.deps = pruneOn p (keys s.deps) s.deps := by
    apply pruneOn_congr
    intro k _
    simp [horder.mem_iff]
  unfold state.transitiveReduction
  rw [hrun, hcongr]

/-! ## The worked example is acyclic -/

theorem specExample_deps :
    (build specExample).deps = [("A/x", ["A/y", "A/z"]), ("A/y", ["A/z"])] := by
  decide

theorem specExample_acyclic : Acyclic (build specExample).deps := by
  rw [specExample_deps]
  exact acyclic_of_rank (fun s => if s = "A/x" then 2 else if s = "A/y" then 1 else 0)
    (edge_rank_of_entries (by decide))

/-! ## The claims about the reduction -/

/-- Claim C1 (reachability preservation): on every acyclic graph built by `add`, for every visiting
order of the keys and enough fuel, `transitiveReduction` returns a state, and a node `a`
reaches a node `b` by a path of one or more edges before the reduction exactly when it does
so afterwards. -/
theorem transitiveReduction_preserves_reach (edges : List (String × String))
    (hac : Acyclic (build edges).deps) (fuel : Nat)
    (hfuel : (targets (build edges).deps).length ≤ fuel) (order : List String)
    (horder : order.Perm (keys (build edges).deps)) :
    ∃ s1, (build edges).transitiveReduction fuel order = some s1 ∧
      ∀ a b, Reach (build edges).deps a b ↔ Reach s1.deps a b := by
  obtain ⟨p, hp⟩ := exists_noDetour (build edges).deps
  refine ⟨_, transitiveReduction_eq _ (keys_build_nodup edges) hac p hp fuel hfuel order horder,
    fun a b => (reach_pruneOn_iff hac hp _ a b).symm⟩

theorem transitiveReduction_preserves_reach_witness :
    Acyclic (build specExample).deps ∧ (targets (build specExample).deps).length ≤ 3 ∧
      List.Perm ["A/y", "A/x"] (keys (build specExample).deps) ∧
      ∃ s1, (build specExample).transitiveReduction 3 ["A/y", "A/x"] = some s1 ∧
        ∀ a b, Reach (build specExample).deps a b ↔ Reach s1.deps a b :=
  ⟨specExample_acyclic, by decide, by decide,
    transitiveReduction_preserves_reach specExample specExample_acyclic 3 (by decide)
      ["A/y", "A/x"] (by decide)⟩

/-- Claim C2 (minimality): on every acyclic graph built by `add`, after `transitiveReduction` no
surviving edge `(m, d)` has a path of two or more edges from `m` to `d` in the reduced map;
every original edge with such a path in the original map has been removed; and removing a
surviving edge loses the reachability of `d` from `m`. -/
theorem transitiveReduction_minimal (edges : List (String × String))
    (hac : Acyclic (build edges).deps) (fuel : Nat)
    (hfuel : (targets (build edges).deps).length ≤ fuel) (order : List String)
    (horder : order.Perm (keys (build edges).deps)) :
    ∃ s1, (build edges).transitiveReduction fuel order = some s1 ∧
      (∀ m d, Edge s1.deps m d → ¬ Detour s1.deps m d) ∧
      (∀ m d, Edge (build edges).deps m d → Detour (build edges).deps m d →
        ¬ Edge s1.deps m d) ∧
      (∀ m d, Edge s1.deps m d → Reach s1.deps m d ∧ ¬ Reach (removeEdge s1.deps m d) m d) := by
  obtain ⟨p, hp⟩ := exists_noDetour (build edges).deps
  refine ⟨_, transitiveReduction_eq _ (keys_build_nodup edges) hac p hp fuel hfuel order horder,
    fun m d h => no_detour_pruneOn hp h, ?_, ?_⟩
  · intro m d _ hdet hedge
    unfold Edge at hedge
    simp only [index_pruneOn] at hedge
    split at hedge
    · exact (hp m d).mp (List.mem_filter.mp hedge).2 hdet
    · rename_i hm
      have : lookup (build edges).deps m = none := (lookup_eq_none_iff _ m).mpr hm
      simp [index, this] at hedge
  · intro m d hedge
    refine ⟨Relation.TransGen.single hedge, ?_⟩
    intro hr
    have hsub : ∀ a b, Edge (removeEdge (pruneOn p (keys (build edges).deps)
        (build edges).deps) m d) a b →
        Edge (pruneOn p (keys (build edges).deps) (build edges).deps) a b :=
      fun a b h => (edge_removeEdge h).1
    rcases Relation.TransGen.head'_iff.mp hr with ⟨c, hmc, hcd⟩
    have hc := edge_removeEdge hmc
    rcases Relation.reflTransGen_iff_eq_or_transGen.mp hcd with e | hcd
    · exact hc.2 ⟨rfl, e.symm⟩
    · exact no_detour_pruneOn hp hedge ⟨c, hc.1, Reach.mono hsub hcd⟩

theorem transitiveReduction_minimal_witness :
    Acyclic (build specExample).deps ∧ (targets (build specExample).deps).length ≤ 4 ∧
      List.Perm ["A/x", "A/y"] (keys (build specExample).deps) ∧
      ∃ s1, (build specExample).transitiveReduction 4 ["A/x", "A/y"] = some s1 ∧
        (∀ m d, Edge s1.deps m d → ¬ Detour s1.deps m d) ∧
        (∀ m d, Edge (build specExample).deps m d → Detour (build specExample).deps m d →
          ¬ Edge s1.deps m d) ∧
        (∀ m d, Edge s1.deps m d →
          Reach s1.deps m d ∧ ¬ Reach (removeEdge s1.deps m d) m d) :=
  ⟨specExample_acyclic, by decide, by decide,
    transitiveReduction_minimal specExample specExample_acyclic 4 (by decide)
      ["A/x", "A/y"] (by decide)⟩

/-- Claim C3 (determinism): on every acyclic graph built by `add`, any two visiting orders of the
keys (and any two sufficient amounts of fuel) make `transitiveReduction` return the same
state, hence the same sorted views. -/
theorem transitiveReduction_order_independent (edges : List (String × String))
    (hac : Acyclic (build edges).deps) (fuel1 fuel2 : Nat)
    (hfuel1 : (targets (build edges).deps).length ≤ fuel1)
    (hfuel2 : (targets (build edges).deps).length ≤ fuel2) (order1 order2 : List String)
    (horder1 : order1.Perm (keys (build edges).deps))
    (horder2 : order2.Perm (keys (build edges).deps)) :
    ∃ s1, (build edges).transitiveReduction fuel1 order1 = some s1 ∧
      (build edges).transitiveReduction fuel2 order2 = some s1 := by
  obtain ⟨p, hp⟩ := exists_noDetour (build edges).deps
  exact ⟨_, transitiveReduction_eq _ (keys_build_nodup edges) hac p hp fuel1 hfuel1 order1 horder1,
    transitiveReduction_eq _ (keys_build_nodup edges) hac p hp fuel2 hfuel2 order2 horder2⟩

theorem transitiveReduction_order_independent_witness :
    Acyclic (build specExample).deps ∧ (targets (build specExample).deps).length ≤ 3 ∧
      (targets (build specExample).deps).length ≤ 5 ∧
      List.Perm ["A/x", "A/y"] (keys (build specExample).deps) ∧
      List.Perm ["A/y", "A/x"] (keys (build specExample).deps) ∧
      ∃ s1, (build specExample).transitiveReduction 3 ["A/x", "A/y"] = some s1 ∧
        (build specExample).transitiveReduction 5 ["A/y", "A/x"] = some s1 :=
  ⟨specExample_acyclic, by decide, by decide, by decide, by decide,
    transitiveReduction_order_independent specExample specExample_acyclic 3 5 (by decide)
      (by decide) ["A/x", "A/y"] ["A/y", "A/x"] (by decide) (by decide)⟩

/-- Claim C4 (idempotence): on every acyclic graph built by `add`, running `transitiveReduction`
again on the reduced state (for any visiting order and enough fuel) returns that same
state: the reduced state is a fixed point. -/
theorem transitiveReduction_idempotent (edges : List (String × String))
    (hac : Acyclic (build edges).deps) (fuel1 fuel2 : Nat)
    (hfuel1 : (targets (build edges).deps).length ≤ fuel1)
    (hfuel2 : (targets (build edges).deps).length ≤ fuel2) (order1 order2 : List String)
    (horder1 : order1.Perm (keys (build edges).deps))
    (horder2 : order2.Perm (keys (build edges).deps)) :
    ∃ s1, (build edges).transitiveReduction fuel1 order1 = some s1 ∧
      s1.transitiveReduction fuel2 order2 = some s1 := by
  obtain ⟨p, hp⟩ := exists_noDetour (build edges).deps
  obtain ⟨rank, hrank, hbound⟩ := exists_rank (build edges).deps hac
  refine ⟨_, transitiveReduction_eq _ (keys_build_nodup edges) hac p hp fuel1 hfuel1 order1
    horder1, ?_⟩
  obtain ⟨p1, hp1⟩ := exists_noDetour (pruneOn p (keys (build edges).deps) (build edges).deps)
  have hkeys : keys (pruneOn p (keys (build edges).deps) (build edges).deps) =
      keys (build edges).deps := keys_pruneOn _ _ _
  have hnd1 : (keys (pruneOn p (keys (build edges).deps) (build edges).deps)).Nodup := by
    rw [hkeys]
    exact keys_build_nodup edges
  have hrun := transitiveReduction_eq_rank
    { build edges with deps := pruneOn p (keys (build edges).deps) (build edges).deps }
    hnd1 (fun a b h => hrank a b (edge_pruneOn_sub _ _ _ a b h)) p1 hp1 fuel2
    (fun a => le_trans (hbound a) hfuel2) order2 (by rw [hkeys]; exact horder2)
  rw [hrun]
  congr 2
  exact pruneOn_eq_self hnd1 (fun m d h => (hp1 m d).mpr (no_detour_pruneOn hp h)) _

theorem transitiveReduction_idempotent_witness :
    Acyclic (build specExample).deps ∧ (targets (build specExample).deps).length ≤ 3 ∧
      (targets (build specExample).deps).length ≤ 3 ∧
      List.Perm ["A/x", "A/y"] (keys (build specExample).deps) ∧
      List.Perm ["A/y", "A/x"] (keys (build specExample).deps) ∧
      ∃ s1, (build specExample).transitiveReduction 3 ["A/x", "A/y"] = some s1 ∧
        s1.transitiveReduction 3 ["A/y", "A/x"] = some s1 :=
  ⟨specExample_acyclic, by decide, by decide, by decide, by decide,
    transitiveReduction_idempotent specExample specExample_acyclic 3 3 (by decide)
      (by decide) ["A/x", "A/y"] ["A/y", "A/x"] (by decide) (by decide)⟩

/-- Claim C5 (the reduction only removes edges): on every acyclic graph built by `add`, after
`transitiveReduction` the list of every node is a sub-sequence of its list before, the keys
of the adjacency map are the same, in the same places, and `seen` and `repos` are
unchanged. -/
theorem transitiveReduction_only_removes (edges : List (String × String))
    (hac : Acyclic (build edges).deps) (fuel : Nat)
    (hfuel : (targets (build edges).deps).length ≤ fuel) (order : List String)
    (horder : order.Perm (keys (build edges).deps)) :
    ∃ s1, (build edges).transitiveReduction fuel order = some s1 ∧
      (∀ m, (index s1.deps m).Sublist (index (build edges).deps m)) ∧
      keys s1.deps = keys (build edges).deps ∧
      s1.seen = (build edges).seen ∧ s1.repos = (build edges).repos := by
  obtain ⟨p, hp⟩ := exists_noDetour (build edges).deps
  refine ⟨_, transitiveReduction_eq _ (keys_build_nodup edges) hac p hp fuel hfuel order horder,
    ?_, keys_pruneOn _ _ _, rfl, rfl⟩
  intro m
  simp only [index_pruneOn]
  split
  · exact List.filter_sublist _
  · exact List.Sublist.refl _

theorem transitiveReduction_only_removes_witness :
    Acyclic (build specExample).deps ∧ (targets (build specExample).deps).length ≤ 6 ∧
      List.Perm ["A/y", "A/x"] (keys (build specExample).deps) ∧
      ∃ s1, (build specExample).transitiveReduction 6 ["A/y", "A/x"] = some s1 ∧
        (∀ m, (index s1.deps m).Sublist (index (build specExample).deps m)) ∧
        keys s1.deps = keys (build specExample).deps ∧
        s1.seen = (build specExample).seen ∧ s1.repos = (build specExample).repos :=
  ⟨specExample_acyclic, by decide, by decide,
    transitiveReduction_only_removes specExample specExample_acyclic 6 (by decide)
      ["A/y", "A/x"] (by decide)⟩

/-- Claim C7 (termination): on every acyclic graph built by `add`, with as much fuel as there are
stored targets, `transitiveReduction` returns a state for every visiting order, so each of
its breadth expansions ended within the fuel; and the expansion for any candidate edge
`(m, d)` of the built graph, whatever the memo, either finds `d` or empties its frontier
within that many rounds. -/
theorem transitiveReduction_terminates (edges : List (String × String))
    (hac : Acyclic (build edges).deps) (fuel : Nat)
    (hfuel : (targets (build edges).deps).length ≤ fuel) (order : List String)
    (horder : order.Perm (keys (build edges).deps)) :
    (∃ s1, (build edges).transitiveReduction fuel order = some s1) ∧
      ∀ (noPath : List (String × String)) (m d : String),
        ∃ o, search (build edges).deps noPath d fuel
          ((index (build edges).deps m).filter fun c => c != d) [] = some o := by
  obtain ⟨p, hp⟩ := exists_noDetour (build edges).deps
  refine ⟨⟨_, transitiveReduction_eq _ (keys_build_nodup edges) hac p hp fuel hfuel order
    horder⟩, ?_⟩
  intro noPath m d
  obtain ⟨rank, hrank, hbound⟩ := exists_rank (build edges).deps hac
  apply search_terminates hrank
  intro c hc
  have hmc : Edge (build edges).deps m c := (List.mem_filter.mp hc).1
  have h1 := hrank m c hmc
  have h2 := hbound m
  omega

theorem transitiveReduction_terminates_witness :
    Acyclic (build specExample).deps ∧ (targets (build specExample).deps).length ≤ 3 ∧
      List.Perm ["A/x", "A/y"] (keys (build specExample).deps) ∧
      (∃ s1, (build specExample).transitiveReduction 3 ["A/x", "A/y"] = some s1) ∧
        ∀ (noPath : List (String × String)) (m d : String),
          ∃ o, search (build specExample).deps noPath d 3
            ((index (build specExample).deps m).filter fun c => c != d) [] = some o :=
  ⟨specExample_acyclic, by decide, by decide,
    transitiveReduction_terminates specExample specExample_acyclic 3 (by decide)
      ["A/x", "A/y"] (by decide)⟩

/-! ## The worked example, for arbitrary distinct nodes -/

theorem chain3_deps (x y z : String) (hxy : x ≠ y) (hyz : y ≠ z) :
    (build [(x, y), (y, z), (x, z)]).deps = [(x, [y, z]), (y, [z])] := by
  have hyx : y ≠ x := fun e => hxy e.symm
  have hzy : z ≠ y := fun e => hyz e.symm
  simp only [build, List.foldl, add_deps]
  simp [newState, lookup, assign, hxy, hyx, hzy]

theorem chain3_reduce (x y z : String) (hxy : x ≠ y) (hyz : y ≠ z) (hxz : x ≠ z) :
    reduceNodes 3 [x, y] [(x, [y, z]), (y, [z])] [] =
      some ([(x, [y]), (y, [z])], [(z, y)]) := by
  have hyx : y ≠ x := fun e => hxy e.symm
  have hzy : z ≠ y := fun e => hyz e.symm
  have hzx : z ≠ x := fun e => hxz e.symm
  simp [reduceNodes, DeleteFunc, redundant, search, expand, record, lookup, assign, index,
    hxy, hyz, hxz, hyx, hzy, hzx]

theorem chain3_acyclic (x y z : String) (hxy : x ≠ y) (hyz : y ≠ z) (hxz : x ≠ z) :
    Acyclic [(x, [y, z]), (y, [z])] := by
  have hyx : y ≠ x := fun e => hxy e.symm
  have hzy : z ≠ y := fun e => hyz e.symm
  have hzx : z ≠ x := fun e => hxz e.symm
  apply acyclic_of_rank (fun s => if s = x then 2 else if s = y then 1 else 0)
  apply edge_rank_of_entries
  simp [hyx, hzy, hzx]

/-- Claim C6 (the worked example): for three distinct nodes `x`, `y`, `z`, the state built by
`add(x, y)`, `add(y, z)`, `add(x, z)` is reduced, in either visiting order, to exactly the
edges `x → y` and `y → z`: the list of `x` is `[y]`, that of `y` is `[z]`, `z` has no
outgoing edge and the direct edge `x → z` is gone. -/
theorem worked_example (x y z : String) (hxy : x ≠ y) (hyz : y ≠ z) (hxz : x ≠ z)
    (fuel : Nat) (hfuel : 3 ≤ fuel) (order : List String) (horder : order.Perm [x, y]) :
    ∃ s1, (build [(x, y), (y, z), (x, z)]).transitiveReduction fuel order = some s1 ∧
      s1.deps = [(x, [y]), (y, [z])] ∧
      index s1.deps x = [y] ∧ index s1.deps y = [z] ∧ index s1.deps z = [] ∧
      ¬ Edge s1.deps x z := by
  have hyx : y ≠ x := fun e => hxy e.symm
  have hzy : z ≠ y := fun e => hyz e.symm
  have hzx : z ≠ x := fun e => hxz e.symm
  have hdeps := chain3_deps x y z hxy hyz
  have hac : Acyclic (build [(x, y), (y, z), (x, z)]).deps := by
    rw [hdeps]
    exact chain3_acyclic x y z hxy hyz hxz
  have hkeys : keys (build [(x, y), (y, z), (x, z)]).deps = [x, y] := by
    rw [hdeps]
    rfl
  have htar : (targets (build [(x, y), (y, z), (x, z)]).deps).length = 3 := by
    rw [hdeps]
    rfl
  obtain ⟨p, hp⟩ := exists_noDetour (build [(x, y), (y, z), (x, z)]).deps
  have h1 := transitiveReduction_eq _ (keys_build_nodup _) hac p hp fuel (by omega) order
    (by rw [hkeys]; exact horder)
  have h2 := transitiveReduction_eq _ (keys_build_nodup _) hac p hp 3 (by omega) [x, y]
    (by rw [hkeys])
  obtain ⟨s1, h1, h2⟩ : ∃ s1,
      (build [(x, y), (y, z), (x, z)]).transitiveReduction fuel order = some s1 ∧
      (build [(x, y), (y, z), (x, z)]).transitiveReduction 3 [x, y] = some s1 := ⟨_, h1, h2⟩
  have h3 : s1.deps = [(x, [y]), (y, [z])] := by
    unfold state.transitiveReduction at h2
    rw [hdeps, chain3_reduce x y z hxy hyz hxz] at h2
    simp only [Option.some.injEq] at h2
    rw [← h2]
  refine ⟨s1, h1, h3, ?_⟩
  rw [h3]
  simp [Edge, index, lookup, hxy, hyz, hxz, hyx, hzy, hzx]

theorem worked_example_witness :
    "A/x" ≠ "A/y" ∧ "A/y" ≠ "A/z" ∧ "A/x" ≠ "A/z" ∧ 3 ≤ 3 ∧
      List.Perm ["A/y", "A/x"] ["A/x", "A/y"] ∧
      ∃ s1, (build [("A/x", "A/y"), ("A/y", "A/z"), ("A/x", "A/z")]).transitiveReduction 3
          ["A/y", "A/x"] = some s1 ∧
        s1.deps = [("A/x", ["A/y"]), ("A/y", ["A/z"])] ∧
        index s1.deps "A/x" = ["A/y"] ∧ index s1.deps "A/y" = ["A/z"] ∧
        index s1.deps "A/z" = [] ∧ ¬ Edge s1.deps "A/x" "A/z" :=
  ⟨by decide, by decide, by decide, by decide, by decide,
    worked_example "A/x" "A/y" "A/z" (by decide) (by decide) (by decide) 3 (by decide)
      ["A/y", "A/x"] (by decide)⟩

/-! ## Dedup on ingestion -/

/-- Claim C8 (dedup on ingestion): in every state built by `add` no adjacency list holds the same
target twice; and calling `add(a, b)` a second time leaves the state as the first call left
it, with `b` stored exactly once on the list of `a`. -/
theorem add_dedup (edges : List (String × String)) :
    (∀ m, (index (build edges).deps m).Nodup) ∧
      ∀ a b, ((build edges).add a b).add a b = (build edges).add a b ∧
        (index ((build edges).add a b).deps a).count b = 1 := by
  refine ⟨index_build_nodup edges, fun a b => ⟨add_add _ a b, ?_⟩⟩
  rw [← build_append]
  apply List.count_eq_one_of_mem (index_build_nodup _ a)
  rw [build_append, add_deps]
  cases hl : lookup (build edges).deps a with
  | none => simp [index_assign_self]
  | some d =>
    by_cases hb : b ∈ d
    · simp [hb, index, hl]
    · simp [hb, index_assign_self]

/-! ## The node set -/

theorem seen_add_nodup (s : state) (a b : String) (h : s.seen.Nodup) :
    (s.add a b).seen.Nodup := by
  rw [add_seen]
  exact nodup_seen_sawMod _ _ (nodup_seen_sawMod _ _ h)

theorem seen_build_nodup (edges : List (String × String)) : (build edges).seen.Nodup :=
  build_induction (fun s => s.seen.Nodup) (by simp [newState])
    (fun s a b h => seen_add_nodup s a b h) edges

theorem mem_seen_add (s : state) (a b n : String) :
    n ∈ (s.add a b).seen ↔ n ∈ s.seen ∨ n = a ∨ n = b := by
  rw [add_seen, mem_seen_sawMod, mem_seen_sawMod, or_assoc]

/-- Every node passed to `add`, as source or as target, is in `seen`. -/
theorem mem_seen_build (edges : List (String × String)) :
    ∀ e ∈ edges, e.1 ∈ (build edges).seen ∧ e.2 ∈ (build edges).seen := by
  induction edges using List.reverseRecOn with
  | nil => intro e he; simp at he
  | append_singleton es e1 ih =>
    intro e he
    obtain ⟨a, b⟩ := e1
    rw [build_append]
    simp only [mem_seen_add]
    rcases List.mem_append.mp he with h | h
    · exact ⟨Or.inl (ih e h).1, Or.inl (ih e h).2⟩
    · simp only [List.mem_singleton] at h
      subst h
      exact ⟨Or.inr (Or.inl rfl), Or.inr (Or.inr rfl)⟩

theorem transitiveReduction_seen {s s1 : state} {fuel : Nat} {order : List String}
    (h : s.transitiveReduction fuel order = some s1) : s1.seen = s.seen := by
  unfold state.transitiveReduction at h
  split at h
  · cases h
  · simp only [Option.some.injEq] at h
    rw [← h]

theorem depsSorted_fst (s : state) :
    s.depsSorted.map Prod.fst = s.seen.insertionSort fun a b => a ≤ b := by
  simp [state.depsSorted, List.map_map, Function.comp_def]

/-- Claim C9 (node completeness and order): for every state built by `add`, reduced or not,
`depsSorted` yields the nodes of `seen` in strictly ascending order, each exactly once and
paired with its current adjacency list; every node ever passed to `add` is yielded, a node
without outgoing edges with the empty list. -/
theorem depsSorted_complete (edges : List (String × String)) (s1 : state)
    (hs : s1 = build edges ∨
      ∃ fuel order, (build edges).transitiveReduction fuel order = some s1) :
    (s1.depsSorted.map Prod.fst).Sorted (fun a b => a < b) ∧
      (∀ n, n ∈ s1.depsSorted.map Prod.fst ↔ n ∈ s1.seen) ∧
      (∀ n ∈ s1.seen, (s1.depsSorted.map Prod.fst).count n = 1) ∧
      (∀ e ∈ s1.depsSorted, e.2 = index s1.deps e.1) ∧
      (∀ e ∈ edges, (e.1, index s1.deps e.1) ∈ s1.depsSorted ∧
        (e.2, index s1.deps e.2) ∈ s1.depsSorted) ∧
      (∀ n ∈ s1.seen, index s1.deps n = [] → (n, []) ∈ s1.depsSorted) := by
  have hseen : s1.seen = (build edges).seen := by
    rcases hs with h | ⟨fuel, order, h⟩
    · rw [h]
    · exact transitiveReduction_seen h
  have hnd : s1.seen.Nodup := by
    rw [hseen]
    exact seen_build_nodup edges
  have hperm : (s1.depsSorted.map Prod.fst).Perm s1.seen := by
    rw [depsSorted_fst]
    exact List.perm_insertionSort _ _
  have hnd1 : (s1.depsSorted.map Prod.fst).Nodup := hperm.nodup_iff.mpr hnd
  have hmem : ∀ n ∈ s1.seen, (n, index s1.deps n) ∈ s1.depsSorted := by
    intro n hn
    unfold state.depsSorted
    apply List.mem_map.mpr
    exact ⟨n, (List.perm_insertionSort _ _).mem_iff.mpr hn, rfl⟩
  refine ⟨?_, fun n => hperm.mem_iff, ?_, ?_, ?_, ?_⟩
  · apply List.Sorted.lt_of_le _ hnd1
    rw [depsSorted_fst]
    exact List.sorted_insertionSort _ _
  · intro n hn
    exact List.count_eq_one_of_mem hnd1 (hperm.mem_iff.mpr hn)
  · intro e he
    unfold state.depsSorted at he
    obtain ⟨m, _, hm⟩ := List.mem_map.mp he
    rw [← hm]
  · intro e he
    have := mem_seen_build edges e he
    rw [← hseen] at this
    exact ⟨hmem _ this.1, hmem _ this.2⟩
  · intro n hn hidx
    have := hmem n hn
    rw [hidx] at this
    exact this

theorem depsSorted_complete_witness :
    (specReduced = build specExample ∨
        ∃ fuel order, (build specExample).transitiveReduction fuel order = some specReduced) ∧
      (specReduced.depsSorted.map Prod.fst).Sorted (fun a b => a < b) ∧
      (∀ n, n ∈ specReduced.depsSorted.map Prod.fst ↔ n ∈ specReduced.seen) ∧
      (∀ n ∈ specReduced.seen, (specReduced.depsSorted.map Prod.fst).count n = 1) ∧
      (∀ e ∈ specReduced.depsSorted, e.2 = index specReduced.deps e.1) ∧
      (∀ e ∈ specExample, (e.1, index specReduced.deps e.1) ∈ specReduced.depsSorted ∧
        (e.2, index specReduced.deps e.2) ∈ specReduced.depsSorted) ∧
      (∀ n ∈ specReduced.seen, index specReduced.deps n = [] →
        (n, []) ∈ specReduced.depsSorted) :=
  ⟨Or.inr ⟨3, ["A/x", "A/y"], by decide⟩,
    depsSorted_complete specExample specReduced (Or.inr ⟨3, ["A/x", "A/y"], by decide⟩)⟩

/-! ## Repository groups -/

theorem Cut_fst (n : String) (sep : Char) :
    (Cut n sep).1 = String.mk (n.data.takeWhile fun c => c != sep) := by
  unfold Cut
  by_cases h : sep ∈ n.data
  · simp [h]
  · simp only [h, if_false]
    have : (n.data.takeWhile fun c => c != sep) = n.data := by
      rw [List.takeWhile_eq_self_iff]
      intro c hc
      simp only [bne_iff_ne, ne_eq]
      intro e
      exact h (e ▸ hc)
    rw [this]

theorem Cut_fst_of_not_mem (n : String) (sep : Char) (h : sep ∉ n.data) : (Cut n sep).1 = n := by
  unfold Cut
  simp [h]

theorem reposOk_sawMod (s : state) (x : String) (h : ReposOk s) : ReposOk (s.sawMod x) := by
  obtain ⟨hA, hB, hC⟩ := h
  unfold state.sawMod
  by_cases hx : x ∈ s.seen
  · simp only [hx, if_true]
    exact ⟨hA, hB, hC⟩
  · simp only [hx, if_false]
    cases hl : lookup s.repos (Cut x '/').1 with
    | none =>
      have hk : (Cut x '/').1 ∉ keys s.repos := (lookup_eq_none_iff _ _).mp hl
      refine ⟨?_, ?_, ?_⟩
      · simp only
        rw [keys_assign_of_not_mem _ _ _ hk, List.nodup_append]
        refine ⟨hA, List.nodup_singleton _, ?_⟩
        intro a ha hb
        simp at hb
        exact hk (hb ▸ ha)
      · intro k g hkg
        simp only at hkg
        by_cases hkx : k = (Cut x '/').1
        · subst hkx
          rw [lookup_assign_self] at hkg
          cases hkg
          refine ⟨List.nodup_singleton _, ?_⟩
          intro n hn
          simp only [List.mem_singleton] at hn
          subst hn
          simp
        · rw [lookup_assign_ne _ _ _ _ hkx] at hkg
          obtain ⟨h1, h2⟩ := hB k g hkg
          refine ⟨h1, fun n hn => ⟨?_, (h2 n hn).2⟩⟩
          exact List.mem_append_left _ (h2 n hn).1
      · intro n hn
        simp only at hn ⊢
        rcases List.mem_append.mp hn with hn | hn
        · obtain ⟨g, hg, hng⟩ := hC n hn
          have hne : (Cut n '/').1 ≠ (Cut x '/').1 := by
            intro e
            rw [e, hl] at hg
            cases hg
          exact ⟨g, by rw [lookup_assign_ne _ _ _ _ hne]; exact hg, hng⟩
        · simp only [List.mem_singleton] at hn
          subst hn
          exact ⟨[n], lookup_assign_self _ _ _, List.mem_singleton_self _⟩
    | some g0 =>
      have hk : (Cut x '/').1 ∈ keys s.repos := mem_keys_of_lookup hl
      obtain ⟨hg0, hg0m⟩ := hB _ _ hl
      have hxg : x ∉ g0 := fun hxg => hx (hg0m x hxg).1
      refine ⟨?_, ?_, ?_⟩
      · simp only
        rw [keys_assign_of_mem _ _ _ hk]
        exact hA
      · intro k g hkg
        simp only at hkg
        by_cases hkx : k = (Cut x '/').1
        · subst hkx
          rw [lookup_assign_self] at hkg
          cases hkg
          refine ⟨?_, ?_⟩
          · rw [List.nodup_append]
            refine ⟨hg0, List.nodup_singleton _, ?_⟩
            intro a ha hb
            simp at hb
            exact hxg (hb ▸ ha)
          · intro n hn
            rcases List.mem_append.mp hn with hn | hn
            · exact ⟨List.mem_append_left _ (hg0m n hn).1, (hg0m n hn).2⟩
            · simp only [List.mem_singleton] at hn
              subst hn
              simp
        · rw [lookup_assign_ne _ _ _ _ hkx] at hkg
          obtain ⟨h1, h2⟩ := hB k g hkg
          exact ⟨h1, fun n hn => ⟨List.mem_append_left _ (h2 n hn).1, (h2 n hn).2⟩⟩
      · intro n hn
        simp only at hn ⊢
        rcases List.mem_append.mp hn with hn | hn
        · obtain ⟨g, hg, hng⟩ := hC n hn
          by_cases hne : (Cut n '/').1 = (Cut x '/').1
          · rw [hne] at hg ⊢
            rw [hl] at hg
            cases hg
            exact ⟨g0 ++ [x], lookup_assign_self _ _ _, List.mem_append_left _ hng⟩
          · exact ⟨g, by rw [lookup_assign_ne _ _ _ _ hne]; exact hg, hng⟩
        · simp only [List.mem_singleton] at hn
          subst hn
          exact ⟨g0 ++ [n], lookup_assign_self _ _ _, by simp⟩

theorem reposOk_add (s : state) (a b : String) (h : ReposOk s) : ReposOk (s.add a b) := by
  have h2 := reposOk_sawMod _ b (reposOk_sawMod s a h)
  unfold ReposOk at h2 ⊢
  rw [add_repos, add_seen]
  exact h2

theorem reposOk_build (edges : List (String × String)) : ReposOk (build edges) :=
  build_induction ReposOk
    ⟨by simp [newState, keys], by intro k g h; simp [newState, lookup] at h,
      by intro n hn; simp [newState] at hn⟩
    (fun s a b h => reposOk_add s a b h) edges

/-- Claim C10 (repository partition): in every state built by `add` the repository groups
partition the node set: every observed node occurs exactly once in the group stored under
its repository key, the text before its first `/` (the whole identifier when it has no
`/`); a group that holds a node is stored under that node's key, so no other group holds
it; every member of every group is an observed node; and no key has two groups. -/
theorem repos_partition (edges : List (String × String)) :
    (∀ n ∈ (build edges).seen,
        ∃ g, lookup (build edges).repos (Cut n '/').1 = some g ∧ g.count n = 1) ∧
      (∀ e ∈ (build edges).repos, ∀ n ∈ e.2,
        n ∈ (build edges).seen ∧ e.1 = (Cut n '/').1) ∧
      (keys (build edges).repos).Nodup ∧
      ∀ n : String, (Cut n '/').1 = String.mk (n.data.takeWhile fun c => c != '/') ∧
        ('/' ∉ n.data → (Cut n '/').1 = n) := by
  obtain ⟨hA, hB, hC⟩ := reposOk_build edges
  refine ⟨?_, ?_, hA, fun n => ⟨Cut_fst n _, Cut_fst_of_not_mem n _⟩⟩
  · intro n hn
    obtain ⟨g, hg, hng⟩ := hC n hn
    exact ⟨g, hg, List.count_eq_one_of_mem (hB _ _ hg).1 hng⟩
  · intro e he n hn
    obtain ⟨k, g⟩ := e
    exact (hB k g (lookup_of_mem hA he)).2 n hn

/-! ## The store invariant -/

theorem mem_keys_assign {m : List (String × List String)} {k x : String} {v : List String}
    (h : x ∈ keys (assign m k v)) : x ∈ keys m ∨ x = k := by
  by_cases hk : k ∈ keys m
  · rw [keys_assign_of_mem _ _ _ hk] at h
    exact Or.inl h
  · rw [keys_assign_of_not_mem _ _ _ hk] at h
    simpa using h

theorem mem_targets_assign {m : List (String × List String)} {k x : String} {v : List String}
    (h : x ∈ targets (assign m k v)) : x ∈ targets m ∨ x ∈ v := by
  induction m with
  | nil =>
    right
    simpa [assign, targets] using h
  | cons e rest ih =>
    obtain ⟨k1, w⟩ := e
    by_cases hk : k1 = k
    · simp only [assign, hk, if_true, targets, List.map_cons, List.flatten_cons,
        List.mem_append] at h ⊢
      rcases h with h | h
      · exact Or.inr h
      · exact Or.inl (Or.inr h)
    · simp only [assign, hk, if_false, targets, List.map_cons, List.flatten_cons,
        List.mem_append] at h ⊢
      rcases h with h | h
      · exact Or.inl (Or.inl h)
      · rcases ih h with h | h
        · exact Or.inl (Or.inr h)
        · exact Or.inr h

theorem mem_targets_pruneOn {p : String → String → Bool} {done : List String}
    {g : List (String × List String)} {x : String} (h : x ∈ targets (pruneOn p done g)) :
    x ∈ targets g := by
  simp only [targets, pruneOn, List.map_map, List.mem_flatten, List.mem_map,
    Function.comp_apply] at h ⊢
  obtain ⟨l, ⟨e, he, hl⟩, hx⟩ := h
  refine ⟨e.2, ⟨e, he, rfl⟩, ?_⟩
  rw [← hl] at hx
  split at hx
  · exact (List.mem_filter.mp hx).1
  · exact hx

theorem storeOk_add (s : state) (a b : String) (h : StoreOk s) : StoreOk (s.add a b) := by
  obtain ⟨hk, ht⟩ := h
  have hdeps := add_deps s a b
  constructor
  · intro k hkm
    rw [mem_seen_add]
    rw [hdeps] at hkm
    cases hl : lookup s.deps a with
    | none =>
      rw [hl] at hkm
      rcases mem_keys_assign hkm with h1 | h1
      · exact Or.inl (hk k h1)
      · exact Or.inr (Or.inl h1)
    | some d =>
      rw [hl] at hkm
      by_cases hb : b ∈ d
      · simp only [hb, if_true] at hkm
        exact Or.inl (hk k hkm)
      · simp only [hb, if_false] at hkm
        rcases mem_keys_assign hkm with h1 | h1
        · exact Or.inl (hk k h1)
        · exact Or.inr (Or.inl h1)
  · intro x hx
    rw [mem_seen_add]
    rw [hdeps] at hx
    cases hl : lookup s.deps a with
    | none =>
      rw [hl] at hx
      rcases mem_targets_assign hx with h1 | h1
      · exact Or.inl (ht x h1)
      · simp only [List.mem_singleton] at h1
        exact Or.inr (Or.inr h1)
    | some d =>
      rw [hl] at hx
      by_cases hb : b ∈ d
      · simp only [hb, if_true] at hx
        exact Or.inl (ht x hx)
      · simp only [hb, if_false] at hx
        rcases mem_targets_assign hx with h1 | h1
        · exact Or.inl (ht x h1)
        · rcases List.mem_append.mp h1 with h2 | h2
          · exact Or.inl (ht x (mem_targets_of_lookup hl h2))
          · simp only [List.mem_singleton] at h2
            exact Or.inr (Or.inr h2)

theorem storeOk_build (edges : List (String × String)) : StoreOk (build edges) :=
  build_induction StoreOk
    ⟨by intro k hk; simp [newState, keys] at hk, by intro x hx; simp [newState, targets] at hx⟩
    (fun s a b h => storeOk_add s a b h) edges

/-- Claim C11 (store invariant): in every state built by `add`, every key of the adjacency
map and every node on an adjacency list is in `seen`; and when the graph is acyclic,
`transitiveReduction` (any visiting order, enough fuel) returns a state in which this still
holds. -/
theorem store_invariant (edges : List (String × String)) :
    StoreOk (build edges) ∧
      ∀ (fuel : Nat) (order : List String), Acyclic (build edges).deps →
        (targets (build edges).deps).length ≤ fuel → order.Perm (keys (build edges).deps) →
        ∃ s1, (build edges).transitiveReduction fuel order = some s1 ∧ StoreOk s1 := by
  refine ⟨storeOk_build edges, ?_⟩
  intro fuel order hac hfuel horder
  obtain ⟨p, hp⟩ := exists_noDetour (build edges).deps
  obtain ⟨hk, ht⟩ := storeOk_build edges
  refine ⟨_, transitiveReduction_eq _ (keys_build_nodup edges) hac p hp fuel hfuel order horder,
    ?_, ?_⟩
  · intro k hkm
    simp only [keys_pruneOn] at hkm
    exact hk k hkm
  · intro x hx
    exact ht x (mem_targets_pruneOn hx)

theorem store_invariant_witness :
    StoreOk (build specExample) ∧
      (Acyclic (build specExample).deps ∧ (targets (build specExample).deps).length ≤ 3 ∧
        List.Perm ["A/y", "A/x"] (keys (build specExample).deps)) ∧
      ∃ s1, (build specExample).transitiveReduction 3 ["A/y", "A/x"] = some s1 ∧ StoreOk s1 :=
  ⟨(store_invariant specExample).1, ⟨specExample_acyclic, by decide, by decide⟩,
    (store_invariant specExample).2 3 ["A/y", "A/x"] specExample_acyclic (by decide)
      (by decide)⟩

/-! ## Parsing: splitting and trimming -/

theorem splitChars_ne_nil (sep : Char) (l : List Char) : splitChars sep l ≠ [] := by
  cases l with
  | nil => simp [splitChars]
  | cons c cs =>
    by_cases h : c = sep
    · simp [splitChars, h]
    · simp only [splitChars, h, if_false]
      split <;> simp

theorem splitChars_of_not_mem (sep : Char) (t : List Char) (h : sep ∉ t) :
    splitChars sep t = [t] := by
  induction t with
  | nil => rfl
  | cons c cs ih =>
    have h1 : c ≠ sep := fun e => h (e ▸ List.mem_cons_self _ _)
    have h2 : sep ∉ cs := fun hm => h (List.mem_cons_of_mem _ hm)
    simp [splitChars, h1, ih h2]

theorem splitChars_append (sep : Char) (t rest : List Char) (h : sep ∉ t) :
    splitChars sep (t ++ sep :: rest) = t :: splitChars sep rest := by
  induction t with
  | nil => simp [splitChars]
  | cons c cs ih =>
    have h1 : c ≠ sep := fun e => h (e ▸ List.mem_cons_self _ _)
    have h2 : sep ∉ cs := fun hm => h (List.mem_cons_of_mem _ hm)
    simp [splitChars, h1, ih h2]

/-- A list either has no separator and is its only piece, or its first piece ends at its
first separator. -/
theorem splitChars_cases (sep : Char) (l : List Char) :
    (sep ∉ l ∧ splitChars sep l = [l]) ∨
      ∃ t rest, l = t ++ sep :: rest ∧ sep ∉ t ∧
        splitChars sep l = t :: splitChars sep rest := by
  induction l with
  | nil => left; simp [splitChars]
  | cons c cs ih =>
    by_cases h : c = sep
    · right
      refine ⟨[], cs, by simp [h], by simp, by simp [splitChars, h]⟩
    · rcases ih with ⟨h1, _⟩ | ⟨t, rest, h1, h2, _⟩
      · left
        have hn : sep ∉ c :: cs := by
          simp only [List.mem_cons, not_or]
          exact ⟨fun e => h e.symm, h1⟩
        exact ⟨hn, splitChars_of_not_mem sep _ hn⟩
      · right
        have hn : sep ∉ c :: t := by
          simp only [List.mem_cons, not_or]
          exact ⟨fun e => h e.symm, h2⟩
        refine ⟨c :: t, rest, by simp [h1], hn, ?_⟩
        have := splitChars_append sep (c :: t) rest hn
        rw [h1]
        simpa using this

/-- Exactly two pieces: the list is the two pieces around its only separator. -/
theorem splitChars_eq_pair {sep : Char} {l p0 p1 : List Char}
    (h : splitChars sep l = [p0, p1]) : l = p0 ++ sep :: p1 ∧ sep ∉ p0 ∧ sep ∉ p1 := by
  rcases splitChars_cases sep l with ⟨_, h1⟩ | ⟨t, rest, h1, h2, h3⟩
  · rw [h1] at h
    simp at h
  · rw [h3] at h
    simp only [List.cons.injEq] at h
    obtain ⟨e1, e2⟩ := h
    subst e1
    rcases splitChars_cases sep rest with ⟨h4, h5⟩ | ⟨t1, rest1, _, _, h6⟩
    · rw [h5] at e2
      simp only [List.cons.injEq, and_true] at e2
      subst e2
      exact ⟨h1, h2, h4⟩
    · rw [h6] at e2
      simp only [List.cons.injEq] at e2
      exact absurd e2.2 (splitChars_ne_nil sep rest1)

theorem trim_head_not_space (l : List Char) (c : Char) (rest : List Char)
    (h : (l.dropWhile IsSpace).rdropWhile IsSpace = c :: rest) : IsSpace c = false := by
  obtain ⟨t, ht⟩ := List.rdropWhile_prefix IsSpace (l.dropWhile IsSpace)
  rw [h] at ht
  have hne : l.dropWhile IsSpace ≠ [] := by
    rw [← ht]
    simp
  have hh := List.head_dropWhile_not IsSpace l hne
  have hc : (l.dropWhile IsSpace).head hne = c := by
    simp [← ht]
  rw [hc] at hh
  exact hh

theorem trim_last_not_space (l : List Char) (c : Char) (init : List Char)
    (h : (l.dropWhile IsSpace).rdropWhile IsSpace = init ++ [c]) : IsSpace c = false := by
  have hne : (l.dropWhile IsSpace).rdropWhile IsSpace ≠ [] := by
    rw [h]
    simp
  have hl := List.rdropWhile_last_not IsSpace (l.dropWhile IsSpace) hne
  have hc : ((l.dropWhile IsSpace).rdropWhile IsSpace).getLast hne = c := by
    simp [h]
  rw [hc] at hl
  simpa using hl

theorem trimSpace_eq_empty_of_spaces (text : String) (h : ∀ c ∈ text.data, IsSpace c = true) :
    TrimSpace text = "" := by
  unfold TrimSpace
  have : text.data.dropWhile IsSpace = [] := List.dropWhile_eq_nil_iff.mpr h
  rw [this]
  rfl

/-- A line of two blank-free parts around one blank is yielded, each part cut at `@`. -/
theorem scanLine_of_pair (text : String) (t1 t2 : List Char)
    (h : (TrimSpace text).data = t1 ++ ' ' :: t2) (h1 : ' ' ∉ t1) (h2 : ' ' ∉ t2) :
    scanLine text = some (String.mk (t1.takeWhile fun c => c != '@'),
      String.mk (t2.takeWhile fun c => c != '@')) := by
  have hne : TrimSpace text ≠ "" := by
    intro e
    rw [e] at h
    simp at h
  have hsplit : Split (TrimSpace text) ' ' = [String.mk t1, String.mk t2] := by
    unfold Split
    rw [h, splitChars_append _ _ _ h1, splitChars_of_not_mem _ _ h2]
    rfl
  unfold scanLine
  simp only [hne, if_false, hsplit, Cut_fst]

theorem scanLine_some_iff (text : String) :
    (∃ pair, scanLine text = some pair) ↔ TwoParts text := by
  constructor
  · rintro ⟨pair, h⟩
    unfold scanLine at h
    simp only at h
    split at h
    · cases h
    · split at h
      · rename_i part0 part1 hsplit
        unfold Split at hsplit
        have hp : splitChars ' ' (TrimSpace text).data = [part0.data, part1.data] := by
          have := congrArg (List.map String.data) hsplit
          simpa [List.map_map, Function.comp_def] using this
        obtain ⟨e, n0, n1⟩ := splitChars_eq_pair hp
        refine ⟨part0.data, part1.data, ?_, ?_, n0, n1, e⟩
        · intro e0
          rw [e0] at e
          exact absurd (trim_head_not_space text.data ' ' part1.data e) (by decide)
        · intro e1
          rw [e1] at e
          exact absurd (trim_last_not_space text.data ' ' part0.data e) (by decide)
      · cases h
  · rintro ⟨t1, t2, _, _, h1, h2, h⟩
    exact ⟨_, scanLine_of_pair text t1 t2 h h1 h2⟩

theorem scanDeps_eq_filterMap (lines : List String) :
    scanDeps lines = lines.filterMap scanLine := by
  induction lines with
  | nil => rfl
  | cons text rest ih =>
    cases h : scanLine text with
    | none => simp [scanDeps, h, ih, List.filterMap_cons]
    | some pair => simp [scanDeps, h, ih, List.filterMap_cons]

theorem takeWhile_ne_not_mem (sep : Char) (l : List Char) :
    sep ∉ l.takeWhile fun c => c != sep := by
  intro h
  have := List.mem_takeWhile_imp h
  simp at this

/-- Claim C12 (version stripping): for every line that, once trimmed, is two blank-free
tokens around one blank, `scanDeps` yields exactly the pair of the tokens' texts before
their first `@` (the whole token when it has no `@`), and neither yielded string contains
`@`. -/
theorem scanDeps_strips_versions (text : String) (t1 t2 : List Char)
    (h : (TrimSpace text).data = t1 ++ ' ' :: t2) (h1 : ' ' ∉ t1) (h2 : ' ' ∉ t2) :
    ∃ p1 p2 : String, scanDeps [text] = [(p1, p2)] ∧
      p1.data = t1.takeWhile (fun c => c != '@') ∧
      p2.data = t2.takeWhile (fun c => c != '@') ∧
      ('@' ∉ t1 → p1.data = t1) ∧ ('@' ∉ t2 → p2.data = t2) ∧
      '@' ∉ p1.data ∧ '@' ∉ p2.data := by
  refine ⟨String.mk (t1.takeWhile fun c => c != '@'),
    String.mk (t2.takeWhile fun c => c != '@'), ?_, rfl, rfl, ?_, ?_,
    takeWhile_ne_not_mem _ _, takeWhile_ne_not_mem _ _⟩
  · simp [scanDeps, scanLine_of_pair text t1 t2 h h1 h2]
  · intro hn
    simp only
    rw [List.takeWhile_eq_self_iff]
    intro c hc
    simp only [bne_iff_ne, ne_eq]
    exact fun e => hn (e ▸ hc)
  · intro hn
    simp only
    rw [List.takeWhile_eq_self_iff]
    intro c hc
    simp only [bne_iff_ne, ne_eq]
    exact fun e => hn (e ▸ hc)

theorem scanDeps_strips_versions_witness :
    ((TrimSpace "a@v1 b@v2").data = "a@v1".data ++ ' ' :: "b@v2".data ∧
        ' ' ∉ "a@v1".data ∧ ' ' ∉ "b@v2".data) ∧
      scanDeps ["a@v1 b@v2"] = [("a", "b")] ∧
      ∃ p1 p2 : String, scanDeps ["a@v1 b@v2"] = [(p1, p2)] ∧
        p1.data = "a@v1".data.takeWhile (fun c => c != '@') ∧
        p2.data = "b@v2".data.takeWhile (fun c => c != '@') ∧
        ('@' ∉ "a@v1".data → p1.data = "a@v1".data) ∧
        ('@' ∉ "b@v2".data → p2.data = "b@v2".data) ∧
        '@' ∉ p1.data ∧ '@' ∉ p2.data :=
  ⟨⟨by decide, by decide, by decide⟩, by decide,
    scanDeps_strips_versions "a@v1 b@v2" "a@v1".data "b@v2".data (by decide) (by decide)
      (by decide)⟩

theorem splitChars_length (sep : Char) (l : List Char) :
    (splitChars sep l).length = l.count sep + 1 := by
  induction l with
  | nil => simp [splitChars]
  | cons c cs ih =>
    by_cases h : c = sep
    · subst h
      simp [splitChars, ih]
    · have hne : (c == sep) = false := by simpa using h
      simp only [splitChars, h, if_false, List.count_cons, hne]
      cases hs : splitChars sep cs with
      | nil => exact absurd hs (splitChars_ne_nil sep cs)
      | cons piece pieces =>
        rw [hs] at ih
        simpa using ih

/-- A line is yielded exactly when its trimmed text holds exactly one blank. -/
theorem scanLine_some_iff_count (text : String) :
    (∃ pair, scanLine text = some pair) ↔ (TrimSpace text).data.count ' ' = 1 := by
  constructor
  · intro h
    obtain ⟨t1, t2, _, _, h1, h2, e⟩ := (scanLine_some_iff text).mp h
    rw [e, List.count_append, List.count_cons, List.count_eq_zero.mpr h1,
      List.count_eq_zero.mpr h2]
    simp
  · intro h
    have hlen := splitChars_length ' ' (TrimSpace text).data
    rw [h] at hlen
    obtain ⟨p0, p1, hp⟩ : ∃ p0 p1, splitChars ' ' (TrimSpace text).data = [p0, p1] := by
      match hs : splitChars ' ' (TrimSpace text).data, hlen with
      | [p0, p1], _ => exact ⟨p0, p1, rfl⟩
    obtain ⟨e, n0, n1⟩ := splitChars_eq_pair hp
    exact ⟨_, scanLine_of_pair text p0 p1 e n0 n1⟩

/-- Claim C13, amended (malformed lines are skipped, the scan continues): `scanDeps` yields
a pair for a line exactly when the trimmed line holds exactly one blank U+0020, that is,
when it is two non-empty blank-free parts around one blank; a part may hold other white
space, so every line of two white-space-free tokens around one blank is yielded, and so is
a line such as `a<TAB>b c`.  A blank line and the line `foo bar baz` yield nothing, and the
pairs of all lines are yielded in input order, whatever lines are skipped before or after
them. -/
theorem scanDeps_skips_malformed :
    (∀ text, (∃ pair, scanLine text = some pair) ↔ TwoParts text) ∧
      (∀ text, (∃ pair, scanLine text = some pair) ↔ (TrimSpace text).data.count ' ' = 1) ∧
      (∀ (text : String) (t1 t2 : List Char), (∀ c ∈ t1, IsSpace c = false) →
        (∀ c ∈ t2, IsSpace c = false) → (TrimSpace text).data = t1 ++ ' ' :: t2 →
        ∃ pair, scanLine text = some pair) ∧
      (∀ lines, scanDeps lines = lines.filterMap scanLine) ∧
      (∀ before after text, ¬ TwoParts text →
        scanDeps (before ++ text :: after) = scanDeps before ++ scanDeps after) ∧
      (∀ before after text pair, scanLine text = some pair →
        scanDeps (before ++ text :: after) = scanDeps before ++ pair :: scanDeps after) ∧
      (∀ text, (∀ c ∈ text.data, IsSpace c = true) → scanLine text = none) ∧
      scanLine "foo bar baz" = none := by
  refine ⟨scanLine_some_iff, scanLine_some_iff_count, ?_, scanDeps_eq_filterMap, ?_, ?_, ?_,
    by decide⟩
  · intro text t1 t2 h1 h2 e
    have n1 : ' ' ∉ t1 := fun hm => by
      have := h1 ' ' hm
      revert this
      decide
    have n2 : ' ' ∉ t2 := fun hm => by
      have := h2 ' ' hm
      revert this
      decide
    exact ⟨_, scanLine_of_pair text t1 t2 e n1 n2⟩
  · intro before after text h
    have hn : scanLine text = none := by
      cases hs : scanLine text with
      | none => rfl
      | some pair => exact absurd ((scanLine_some_iff text).mp ⟨pair, hs⟩) h
    simp [scanDeps_eq_filterMap, List.filterMap_append, List.filterMap_cons, hn]
  · intro before after text pair h
    simp [scanDeps_eq_filterMap, List.filterMap_append, List.filterMap_cons, h]
  · intro text h
    unfold scanLine
    simp [trimSpace_eq_empty_of_spaces text h]

theorem scanDeps_skips_malformed_witness :
    ¬ TwoParts "foo bar baz" ∧
      scanDeps (["a b", ""] ++ "foo bar baz" :: ["  c@v1 d  "]) =
        scanDeps ["a b", ""] ++ scanDeps ["  c@v1 d  "] ∧
      scanDeps ["a b", "", "foo bar baz", "  c@v1 d  "] = [("a", "b"), ("c", "d")] :=
  have h : ¬ TwoParts "foo bar baz" := fun ht => by
    obtain ⟨pair, hp⟩ := (scanDeps_skips_malformed.1 "foo bar baz").mpr ht
    have hn : scanLine "foo bar baz" = none := by decide
    rw [hn] at hp
    cases hp
  ⟨h, scanDeps_skips_malformed.2.2.2.2.1 ["a b", ""] ["  c@v1 d  "] "foo bar baz" h, by decide⟩

/-- Counterexample to claim C13 as stated: the line `a<TAB>b c` has three
white-space-separated tokens, yet `scanDeps` yields a pair for it, so it is false that a
line with a token count other than two yields no pair. -/
theorem scanDeps_tab_counterexample :
    Fields "a\tb c" = ["a", "b", "c"] ∧ scanDeps ["a\tb c"] = [("a\tb", "c")] ∧
      ¬ ∀ text : String, (Fields text).length ≠ 2 → scanDeps [text] = [] := by
  refine ⟨by decide, by decide, ?_⟩
  intro h
  have h1 : scanDeps ["a\tb c"] = [] := h "a\tb c" (by decide)
  revert h1
  decide

/-! ## The filter of `Main` -/

theorem hasPrefix_iff (s pfx : String) :
    HasPrefix s pfx = true ↔ ∃ rest, s.data = pfx.data ++ rest := by
  unfold HasPrefix
  simp only [beq_iff_eq]
  constructor
  · intro h
    refine ⟨s.data.drop pfx.data.length, ?_⟩
    conv_lhs => rw [← List.take_append_drop pfx.data.length s.data]
    rw [h]
  · rintro ⟨rest, h⟩
    rw [h]
    simp

theorem trimPrefix_of_append (s pfx : String) (rest : List Char)
    (h : s.data = pfx.data ++ rest) : TrimPrefix s pfx = String.mk rest := by
  unfold TrimPrefix
  rw [if_pos ((hasPrefix_iff s pfx).mpr ⟨rest, h⟩), h]
  simp

theorem ingest_eq_build_from (pfx : String) (pairs : List (String × String)) (s0 : state) :
    pairs.foldl (ingestStep pfx) s0 =
      (pairs.filterMap fun pair =>
        if HasPrefix pair.1 pfx = true ∧ HasPrefix pair.2 pfx = true then
          some (TrimPrefix pair.1 pfx, TrimPrefix pair.2 pfx)
        else none).foldl (fun s e => s.add e.1 e.2) s0 := by
  induction pairs generalizing s0 with
  | nil => rfl
  | cons pair rest ih =>
    by_cases h1 : HasPrefix pair.1 pfx = true
    · by_cases h2 : HasPrefix pair.2 pfx = true
      · simp [List.foldl_cons, List.filterMap_cons, ingestStep, h1, h2, ih]
      · simp [List.foldl_cons, List.filterMap_cons, ingestStep, h1, h2, ih]
    · simp [List.foldl_cons, List.filterMap_cons, ingestStep, h1, ih]

/-- Claim C14 (filter on the configured `-prefix` value `pfx`): the loop of `Main` passes a
parsed pair to `add` exactly when both sides start with `pfx`, and then with `pfx` removed
from the front of both; a pair with a side that does not start with `pfx` leaves the state
unchanged; so the store is built from exactly the kept pairs, in input order. -/
theorem ingest_filters (pfx : String) :
    (∀ (s : state) (md dp : String) (m1 d1 : List Char),
        md.data = pfx.data ++ m1 → dp.data = pfx.data ++ d1 →
        ingestStep pfx s (md, dp) = s.add (String.mk m1) (String.mk d1)) ∧
      (∀ (s : state) (md dp : String),
        ¬ ((∃ m1, md.data = pfx.data ++ m1) ∧ ∃ d1, dp.data = pfx.data ++ d1) →
        ingestStep pfx s (md, dp) = s) ∧
      (∀ pairs, ingest pfx pairs =
        build (pairs.filterMap fun pair =>
          if HasPrefix pair.1 pfx = true ∧ HasPrefix pair.2 pfx = true then
            some (TrimPrefix pair.1 pfx, TrimPrefix pair.2 pfx)
          else none)) ∧
      (∀ t : String, HasPrefix t pfx = true ↔ ∃ rest, t.data = pfx.data ++ rest) ∧
      (∀ (t : String) (rest : List Char), t.data = pfx.data ++ rest →
        TrimPrefix t pfx = String.mk rest) := by
  refine ⟨?_, ?_, fun pairs => ingest_eq_build_from pfx pairs newState,
    fun t => hasPrefix_iff t pfx, fun t rest h => trimPrefix_of_append t pfx rest h⟩
  · intro s md dp m1 d1 hm hd
    have h1 := (hasPrefix_iff md pfx).mpr ⟨m1, hm⟩
    have h2 := (hasPrefix_iff dp pfx).mpr ⟨d1, hd⟩
    simp [ingestStep, h1, h2, trimPrefix_of_append md pfx m1 hm,
      trimPrefix_of_append dp pfx d1 hd]
  · intro s md dp h
    unfold ingestStep
    by_cases h1 : HasPrefix md pfx = true
    · by_cases h2 : HasPrefix dp pfx = true
      · exact absurd ⟨(hasPrefix_iff md pfx).mp h1, (hasPrefix_iff dp pfx).mp h2⟩ h
      · simp [h2]
    · simp [h1]

theorem ingest_filters_witness :
    ("github.com/a/x".data = "github.com/".data ++ "a/x".data ∧
        "github.com/a/y".data = "github.com/".data ++ "a/y".data) ∧
      ingestStep "github.com/" newState ("github.com/a/x", "github.com/a/y") =
        newState.add "a/x" "a/y" ∧
      ingest "github.com/" [("github.com/a/x", "github.com/a/y"), ("other/z", "github.com/a/x")]
        = build [("a/x", "a/y")] :=
  ⟨⟨by decide, by decide⟩,
    (ingest_filters "github.com/").1 newState "github.com/a/x" "github.com/a/y" "a/x".data
      "a/y".data (by decide) (by decide),
    ((ingest_filters "github.com/").2.2.1 _).trans (by decide)⟩

/-! ## The repository blocks -/

theorem printRepos_map (pfx : String) (f : String → List String) :
    ∀ (l : List String) (out : String) (subgraphs : List String),
      printRepos pfx (l.map fun r => (r, f r)) out subgraphs =
        ((l.filter fun r => decide (1 < (f r).length)).foldl
            (fun acc r => acc ++ repoBlock pfx r ((f r).insertionSort fun a b => a ≤ b)) out,
          subgraphs ++ (l.filter fun r => decide (1 < (f r).length)).map fun r => r ++ "-repo") := by
  intro l
  induction l with
  | nil => intro out subgraphs; simp [printRepos]
  | cons r rest ih =>
    intro out subgraphs
    by_cases h : (f r).length ≤ 1
    · have h1 : ¬ 1 < (f r).length := by omega
      simp [printRepos, h, h1, ih, List.filter_cons]
    · have h1 : 1 < (f r).length := by omega
      simp [printRepos, h, h1, ih, List.filter_cons]

theorem append_repo_injective {a b : String} (h : a ++ "-repo" = b ++ "-repo") : a = b := by
  have := congrArg String.data h
  simp only [String.data_append, List.append_left_inj] at this
  exact String.ext this

/-- What the loop over `reposSorted` does on a built state: it handles the repositories
with more than one member, in strictly ascending order of the key. -/
theorem printRepos_build (pfx : String) (edges : List (String × String)) :
    ∃ emitted : List String,
      emitted.Sorted (fun a b => a < b) ∧
      emitted.Sublist ((build edges).reposSorted.map Prod.fst) ∧
      (∀ r, r ∈ emitted ↔ ∃ g, lookup (build edges).repos r = some g ∧ 1 < g.length) ∧
      printRepos pfx (build edges).reposSorted "" [] =
        (emitted.foldl (fun acc r => acc ++ repoBlock pfx r
            ((index (build edges).repos r).insertionSort fun a b => a ≤ b)) "",
          emitted.map fun r => r ++ "-repo") := by
  obtain ⟨hA, _, _⟩ := reposOk_build edges
  have hperm : ((keys (build edges).repos).insertionSort fun a b => a ≤ b).Perm
      (keys (build edges).repos) := List.perm_insertionSort _ _
  have hsorted : ((keys (build edges).repos).insertionSort fun a b => a ≤ b).Sorted
      (fun a b => a < b) :=
    List.Sorted.lt_of_le (List.sorted_insertionSort _ _) (hperm.nodup_iff.mpr hA)
  have hmem : ∀ r, r ∈ ((keys (build edges).repos).insertionSort fun a b => a ≤ b).filter
      (fun r => decide (1 < (index (build edges).repos r).length)) ↔
      ∃ g, lookup (build edges).repos r = some g ∧ 1 < g.length := by
    intro r
    simp only [List.mem_filter, hperm.mem_iff, decide_eq_true_eq]
    constructor
    · rintro ⟨hk, hlen⟩
      cases hl : lookup (build edges).repos r with
      | none => exact absurd hk ((lookup_eq_none_iff _ _).mp hl)
      | some g => exact ⟨g, rfl, by simpa [index, hl] using hlen⟩
    · rintro ⟨g, hl, hlen⟩
      exact ⟨mem_keys_of_lookup hl, by simpa [index, hl] using hlen⟩
  have hprint := printRepos_map pfx (index (build edges).repos)
    ((keys (build edges).repos).insertionSort fun a b => a ≤ b) "" []
  have hfst : (build edges).reposSorted.map Prod.fst =
      (keys (build edges).repos).insertionSort fun a b => a ≤ b := by
    simp [state.reposSorted, List.map_map, Function.comp_def]
  refine ⟨((keys (build edges).repos).insertionSort fun a b => a ≤ b).filter
      (fun r => decide (1 < (index (build edges).repos r).length)),
    List.Sorted.filter _ hsorted, ?_, hmem, ?_⟩
  · rw [hfst]
    exact List.filter_sublist _
  · unfold state.reposSorted
    rw [hprint]
    simp

theorem intercalate_go_data (sep : String) :
    ∀ (l : List String) (acc : String),
      (String.intercalate.go acc sep l).data =
        acc.data ++ (l.map fun b => sep.data ++ b.data).flatten := by
  intro l
  induction l with
  | nil => intro acc; simp [String.intercalate.go]
  | cons b bs ih =>
    intro acc
    simp [String.intercalate.go, ih, String.data_append]

/-- The pieces between the commas of a comma-join of comma-free names are the names. -/
theorem split_intercalate (names : List String) (hne : names ≠ [])
    (hfree : ∀ n ∈ names, ',' ∉ n.data) : Split (",".intercalate names) ',' = names := by
  have key : ∀ (bs : List String) (a : List Char), ',' ∉ a → (∀ b ∈ bs, ',' ∉ b.data) →
      splitChars ',' (a ++ (bs.map fun b => ",".data ++ b.data).flatten) =
        a :: bs.map String.data := by
    intro bs
    induction bs with
    | nil =>
      intro a ha _
      simpa using splitChars_of_not_mem ',' a ha
    | cons b bs ih =>
      intro a ha hbs
      have hb : ',' ∉ b.data := hbs b (List.mem_cons_self _ _)
      have hrest : ∀ c ∈ bs, ',' ∉ c.data := fun c hc => hbs c (List.mem_cons_of_mem _ hc)
      have e : a ++ ((b :: bs).map fun b => ",".data ++ b.data).flatten =
          a ++ ',' :: (b.data ++ (bs.map fun b => ",".data ++ b.data).flatten) := by
        simp
      rw [e, splitChars_append _ _ _ ha, ih b.data hb hrest]
      simp
  cases names with
  | nil => exact absurd rfl hne
  | cons a as =>
    have ha : ',' ∉ a.data := hfree a (List.mem_cons_self _ _)
    have has : ∀ c ∈ as, ',' ∉ c.data := fun c hc => hfree c (List.mem_cons_of_mem _ hc)
    unfold Split String.intercalate
    rw [intercalate_go_data, key as a.data ha has]
    simp [List.map_map, Function.comp_def]

theorem list_eq_singleton {l : List String} {a : String} (hnd : l.Nodup)
    (h : ∀ r, r ∈ l ↔ r = a) : l = [a] := by
  cases l with
  | nil => exact absurd ((h a).mpr rfl) (List.not_mem_nil _)
  | cons x xs =>
    have hx : x = a := (h x).mp (List.mem_cons_self _ _)
    have hnd1 : x ∉ xs ∧ xs.Nodup := by simpa using hnd
    have hxs : xs = [] := by
      apply List.eq_nil_iff_forall_not_mem.mpr
      intro y hy
      have hya : y = a := (h y).mp (List.mem_cons_of_mem _ hy)
      exact hnd1.1 (hx ▸ hya ▸ hy)
    rw [hx, hxs]

/-- Claim C15, amended (repository grouping blocks): for every state built by `add`, `Main`
prints one grouping block for each repository with more than one member and for no other,
in strictly ascending order of the key, which is the order `reposSorted` yields them in;
a block is the `subgraph` line, one line per member in ascending order, `end` and the
`click` line.  A repository with exactly one member gets no block and is not put on
`subgraphs`; the class directive is the comma-join of `subgraphs`, so when no repository
key holds a comma that repository is not among the names of the directive. -/
theorem repo_blocks (pfx : String) (edges : List (String × String)) :
    ∃ emitted : List String,
      emitted.Sorted (fun a b => a < b) ∧
      emitted.Sublist ((build edges).reposSorted.map Prod.fst) ∧
      (∀ r, r ∈ emitted ↔ ∃ g, lookup (build edges).repos r = some g ∧ 1 < g.length) ∧
      (printRepos pfx (build edges).reposSorted "" []).1 =
        emitted.foldl (fun acc r => acc ++
          ("\n\tsubgraph " ++ r ++ "-repo[" ++ r ++ "]\n" ++
            String.join ((((index (build edges).repos r).insertionSort fun a b => a ≤ b)).map
              fun m => "\t\t " ++ m ++ "\n") ++
            "\tend\n" ++ "\tclick " ++ r ++ "-repo href \"https://" ++ pfx ++ r ++ "\"\n")) "" ∧
      (∀ r, ((index (build edges).repos r).insertionSort fun a b => a ≤ b).Sorted
          (fun a b => a ≤ b) ∧
        ((index (build edges).repos r).insertionSort fun a b => a ≤ b).Perm
          (index (build edges).repos r)) ∧
      (printRepos pfx (build edges).reposSorted "" []).2 = emitted.map (fun r => r ++ "-repo") ∧
      classLines (printRepos pfx (build edges).reposSorted "" []).2 =
        "\n\tclassDef outline stroke-dasharray:6,fill:none;\n" ++
          "\tclass " ++ ",".intercalate (emitted.map fun r => r ++ "-repo") ++ " outline\n" ∧
      (∀ r g, lookup (build edges).repos r = some g → g.length = 1 →
        r ∉ emitted ∧ r ++ "-repo" ∉ (printRepos pfx (build edges).reposSorted "" []).2) ∧
      ((∀ k ∈ keys (build edges).repos, ',' ∉ k.data) →
        ∀ r g, lookup (build edges).repos r = some g → g.length = 1 →
          r ++ "-repo" ∉
            Split (",".intercalate (printRepos pfx (build edges).reposSorted "" []).2) ',') := by
  obtain ⟨emitted, hsorted, hsub, hmem, hprint⟩ := printRepos_build pfx edges
  have hnot : ∀ r g, lookup (build edges).repos r = some g → g.length = 1 → r ∉ emitted := by
    intro r g hl hlen hr
    obtain ⟨g1, hl1, hlen1⟩ := (hmem r).mp hr
    rw [hl] at hl1
    cases hl1
    omega
  have hnames : ∀ r g, lookup (build edges).repos r = some g → g.length = 1 →
      r ++ "-repo" ∉ emitted.map (fun r => r ++ "-repo") := by
    intro r g hl hlen hin
    obtain ⟨r1, hr1, e⟩ := List.mem_map.mp hin
    rw [append_repo_injective e] at hr1
    exact hnot r g hl hlen hr1
  refine ⟨emitted, hsorted, hsub, hmem, ?_, ?_, ?_, ?_, ?_, ?_⟩
  · rw [hprint]
    rfl
  · intro r
    exact ⟨List.sorted_insertionSort _ _, List.perm_insertionSort _ _⟩
  · rw [hprint]
  · rw [hprint]
    rfl
  · intro r g hl hlen
    refine ⟨hnot r g hl hlen, ?_⟩
    rw [hprint]
    exact hnames r g hl hlen
  · intro hfree r g hl hlen
    rw [hprint]
    simp only
    by_cases hne : emitted.map (fun r => r ++ "-repo") = []
    · rw [hne]
      intro hin
      have hd : (r ++ "-repo").data = [] := by
        have : Split (",".intercalate []) ',' = [""] := by decide
        rw [this, List.mem_singleton] at hin
        rw [hin]
      simp at hd
    · rw [split_intercalate _ hne]
      · exact hnames r g hl hlen
      · intro n hn
        obtain ⟨r1, hr1, e⟩ := List.mem_map.mp hn
        have hk : r1 ∈ keys (build edges).repos := by
          obtain ⟨g1, hl1, _⟩ := (hmem r1).mp hr1
          exact mem_keys_of_lookup hl1
        rw [← e, String.data_append]
        intro hc
        rcases List.mem_append.mp hc with h | h
        · exact hfree r1 hk h
        · revert h
          decide

/-- Counterexample to claim C15 as stated: with the repository `z,a` of two members and the
repository `a` of one member, the class directive reads `class z,a-repo outline`, whose
comma-separated names include `a-repo`, the name of the one-member repository. -/
theorem repo_blocks_comma_counterexample :
    lookup (build [("z,a/x", "z,a/y"), ("a/p", "z,a/x")]).repos "a" = some ["a/p"] ∧
      classLines (printRepos "p/"
          (build [("z,a/x", "z,a/y"), ("a/p", "z,a/x")]).reposSorted "" []).2 =
        "\n\tclassDef outline stroke-dasharray:6,fill:none;\n\tclass z,a-repo outline\n" ∧
      "a" ++ "-repo" ∈ Split (",".intercalate (printRepos "p/"
          (build [("z,a/x", "z,a/y"), ("a/p", "z,a/x")]).reposSorted "" []).2) ',' := by
  obtain ⟨emitted, hsorted, _, hmem, hprint⟩ :=
    printRepos_build "p/" [("z,a/x", "z,a/y"), ("a/p", "z,a/x")]
  have hrepos : (build [("z,a/x", "z,a/y"), ("a/p", "z,a/x")]).repos =
      [("z,a", ["z,a/x", "z,a/y"]), ("a", ["a/p"])] := by decide
  have hem : emitted = ["z,a"] := by
    apply list_eq_singleton hsorted.nodup
    intro r
    rw [hmem, hrepos]
    constructor
    · rintro ⟨g, hl, hlen⟩
      by_cases h1 : "z,a" = r
      · exact h1.symm
      · by_cases h2 : "a" = r
        · simp only [lookup, h1, h2, if_false, if_true, Option.some.injEq] at hl
          rw [← hl] at hlen
          simp at hlen
        · simp [lookup, h1, h2] at hl
    · intro e
      subst e
      exact ⟨["z,a/x", "z,a/y"], by simp [lookup], by simp⟩
  rw [hprint, hem]
  refine ⟨by rw [hrepos]; decide, by decide, by decide⟩

/-! ## The memo is an optimisation -/

theorem expandAll_eq (deps : List (String × List String)) (d : String) :
    ∀ children next, expandAll deps d children next = expand deps [] d children next := by
  intro children
  induction children with
  | nil => intro next; rfl
  | cons c cs ih =>
    intro next
    by_cases h : c = d
    · simp [expandAll, expand, h]
    · simp [expandAll, expand, h, ih]

theorem searchAll_eq (deps : List (String × List String)) (d : String) :
    ∀ fuel children touched, searchAll deps d fuel children =
      (search deps [] d fuel children touched).map fun o =>
        match o with
        | Outcome.found => true
        | Outcome.exhausted _ => false := by
  intro fuel
  induction fuel with
  | zero =>
    intro children touched
    cases children <;> simp [searchAll, search]
  | succ fuel ih =>
    intro children touched
    cases children with
    | nil => simp [searchAll, search]
    | cons c cs =>
      simp only [searchAll, search, expandAll_eq]
      cases expand deps [] d (c :: cs) [] with
      | none => simp
      | some next => simp [ih next (touched ++ c :: cs)]

theorem redundantAll_eq (fuel : Nat) (cur : List (String × List String)) (view : List String)
    (d : String) :
    redundantAll fuel cur view d = (redundant fuel cur [] view d).map Prod.fst := by
  unfold redundantAll redundant
  rw [searchAll_eq _ _ _ _ []]
  cases search cur [] d fuel (view.filter fun c => c != d) [] with
  | none => rfl
  | some o => cases o <;> rfl

/-- What the backing array of the list of `m` shows after `done` has been tested: only
targets of `m`, and every target of `m` without a detour. -/
theorem view_spec {g : List (String × List String)} {m : String} {p : String → Bool}
    (hp : ∀ d, p d = true ↔ ¬ Detour g m d) {done todo kept : List String}
    (horig : index g m = done ++ todo) (hkept : kept = done.filter p) :
    (∀ c ∈ kept ++ (index g m).drop kept.length, Edge g m c) ∧
      ∀ c, Edge g m c → c ∈ kept ++ (index g m).drop kept.length ∨ Detour g m c := by
  have hlen : kept.length ≤ done.length := by
    rw [hkept]
    exact List.length_filter_le _ _
  constructor
  · intro c hc
    unfold Edge
    rcases List.mem_append.mp hc with h | h
    · rw [hkept] at h
      rw [horig]
      exact List.mem_append_left _ (List.mem_filter.mp h).1
    · exact List.mem_of_mem_drop h
  · intro c hc
    unfold Edge at hc
    rw [horig] at hc
    rcases List.mem_append.mp hc with h | h
    · cases hpc : p c with
      | true =>
        left
        apply List.mem_append_left
        rw [hkept]
        exact List.mem_filter.mpr ⟨h, hpc⟩
      | false =>
        right
        by_contra hnd
        rw [(hp c).mpr hnd] at hpc
        cases hpc
    · left
      apply List.mem_append_right
      apply mem_drop_of_le hlen
      rw [horig, List.drop_left]
      exact h

theorem DeleteFuncAll_spec {g cur : List (String × List String)} {rank : String → Nat}
    (hrank : ∀ a b, Edge g a b → rank b < rank a) {fuel : Nat} (hfuel : ∀ a, rank a ≤ fuel)
    (hsub : ∀ a b, Edge cur a b → Edge g a b)
    (hinv : ∀ a b, Edge g a b → Edge cur a b ∨ Detour g a b)
    {m : String} {p : String → Bool} (hp : ∀ d, p d = true ↔ ¬ Detour g m d) :
    ∀ (todo done kept : List String),
      index g m = done ++ todo → kept = done.filter p →
        DeleteFuncAll fuel cur m (index g m) todo kept = some (kept ++ todo.filter p) := by
  intro todo
  induction todo with
  | nil =>
    intro done kept _ _
    simp [DeleteFuncAll]
  | cons d todo ih =>
    intro done kept horig hkept
    obtain ⟨hview, hcov⟩ := view_spec hp horig hkept
    obtain ⟨noPath1, hred, _⟩ :=
      redundant_spec hrank hfuel hsub hinv hp hview hcov
        (show MemoSound g [] from fun c d h => by simp at h) d
    have hredAll : redundantAll fuel
        (assign cur m (kept ++ (index g m).drop kept.length))
        (kept ++ (index g m).drop kept.length) d = some (!p d) := by
      rw [redundantAll_eq, hred]
      rfl
    have horig1 : index g m = (done ++ [d]) ++ todo := by
      rw [horig]; simp
    cases hpd : p d with
    | true =>
      rw [hpd] at hredAll
      have hkept1 : kept ++ [d] = (done ++ [d]).filter p := by
        rw [hkept]; simp [List.filter_append, hpd]
      have hrun := ih (done ++ [d]) (kept ++ [d]) horig1 hkept1
      simp only [DeleteFuncAll, hredAll, Bool.not_true]
      rw [hrun]
      simp [List.filter_cons, hpd]
    | false =>
      rw [hpd] at hredAll
      have hkept1 : kept = (done ++ [d]).filter p := by
        rw [hkept]; simp [List.filter_append, hpd]
      have hrun := ih (done ++ [d]) kept horig1 hkept1
      simp only [DeleteFuncAll, hredAll, Bool.not_false]
      rw [hrun]
      simp [List.filter_cons, hpd]

theorem reduceNodesAll_spec {g : List (String × List String)} {rank : String → Nat}
    (hrank : ∀ a b, Edge g a b → rank b < rank a) {fuel : Nat} (hfuel : ∀ a, rank a ≤ fuel)
    (hnd : (keys g).Nodup) {p : String → String → Bool}
    (hp : ∀ m d, p m d = true ↔ ¬ Detour g m d) :
    ∀ (rest done : List String), rest.Nodup → (∀ x ∈ rest, x ∉ done) →
      reduceNodesAll fuel rest (pruneOn p done g) =
        some (pruneOn p (rest.reverse ++ done) g) := by
  intro rest
  induction rest with
  | nil =>
    intro done _ _
    simp [reduceNodesAll]
  | cons m rest ih =>
    intro done hrest hdone
    have hmd : m ∉ done := hdone m (List.mem_cons_self _ _)
    have hrest1 : m ∉ rest ∧ rest.Nodup := by simpa using hrest
    have hlook : lookup (pruneOn p done g) m = lookup g m := by
      rw [lookup_pruneOn]
      cases lookup g m <;> simp [hmd]
    cases hl : lookup g m with
    | none =>
      have hmk : m ∉ keys g := (lookup_eq_none_iff g m).mp hl
      have hrun := ih done hrest1.2 (fun x hx => hdone x (List.mem_cons_of_mem _ hx))
      simp only [reduceNodesAll, hlook, hl]
      rw [hrun]
      congr 1
      apply pruneOn_congr
      intro k hk
      have : k ≠ m := fun e => hmk (e ▸ hk)
      simp [this]
    | some orig =>
      have hmk : m ∈ keys g := mem_keys_of_lookup hl
      have horig : index g m = orig := by simp [index, hl]
      have hdel := DeleteFuncAll_spec hrank hfuel (edge_pruneOn_sub p done g)
        (edge_pruneOn_inv hp done) (hp m) (index g m) [] [] (by simp) (by simp)
      have hdone1 : ∀ x ∈ rest, x ∉ m :: done := by
        intro x hx hxm
        rcases List.mem_cons.mp hxm with e | h
        · exact hrest1.1 (e ▸ hx)
        · exact hdone x (List.mem_cons_of_mem _ hx) h
      have hrun := ih (m :: done) hrest1.2 hdone1
      rw [horig] at hdel
      simp only [reduceNodesAll, hlook, hl, hdel, List.nil_append]
      rw [← horig, assign_pruneOn p done m g hnd hmk, hrun]
      simp

theorem transitiveReductionNoMemo_eq (s : state) (hnd : (keys s.deps).Nodup)
    (hac : Acyclic s.deps) (p : String → String → Bool)
    (hp : ∀ m d, p m d = true ↔ ¬ Detour s.deps m d)
    (fuel : Nat) (hfuel : (targets s.deps).length ≤ fuel)
    (order : List String) (horder : order.Perm (keys s.deps)) :
    s.transitiveReductionNoMemo fuel order =
      some { s with deps := pruneOn p (keys s.deps) s.deps } := by
  obtain ⟨rank, hrank, hbound⟩ := exists_rank s.deps hac
  have hord : order.Nodup := horder.nodup_iff.mpr hnd
  have hrun := reduceNodesAll_spec hrank (fun a => le_trans (hbound a) hfuel) hnd hp order []
    hord (by simp)
  rw [pruneOn_nil] at hrun
  have hcongr : pruneOn p (order.reverse ++ []) s.deps = pruneOn p (keys s.deps) s.deps := by
    apply pruneOn_congr
    intro k _
    simp [horder.mem_iff]
  unfold state.transitiveReductionNoMemo
  rw [hrun, hcongr]

/-- Claim C16 (the negative-result memo is a pure optimisation): on every acyclic graph
built by `add`, `transitiveReduction` with the memo and the same procedure with the memo
check removed return the same state, for every visiting order of either run and enough
fuel. -/
theorem memo_is_optimisation (edges : List (String × String))
    (hac : Acyclic (build edges).deps) (fuel1 fuel2 : Nat)
    (hfuel1 : (targets (build edges).deps).length ≤ fuel1)
    (hfuel2 : (targets (build edges).deps).length ≤ fuel2) (order1 order2 : List String)
    (horder1 : order1.Perm (keys (build edges).deps))
    (horder2 : order2.Perm (keys (build edges).deps)) :
    ∃ s1, (build edges).transitiveReduction fuel1 order1 = some s1 ∧
      (build edges).transitiveReductionNoMemo fuel2 order2 = some s1 := by
  obtain ⟨p, hp⟩ := exists_noDetour (build edges).deps
  exact ⟨_, transitiveReduction_eq _ (keys_build_nodup edges) hac p hp fuel1 hfuel1 order1 horder1,
    transitiveReductionNoMemo_eq _ (keys_build_nodup edges) hac p hp fuel2 hfuel2 order2
      horder2⟩

theorem memo_is_optimisation_witness :
    Acyclic (build specExample).deps ∧ (targets (build specExample).deps).length ≤ 3 ∧
      (targets (build specExample).deps).length ≤ 4 ∧
      List.Perm ["A/x", "A/y"] (keys (build specExample).deps) ∧
      List.Perm ["A/y", "A/x"] (keys (build specExample).deps) ∧
      ∃ s1, (build specExample).transitiveReduction 3 ["A/x", "A/y"] = some s1 ∧
        (build specExample).transitiveReductionNoMemo 4 ["A/y", "A/x"] = some s1 :=
  ⟨specExample_acyclic, by decide, by decide, by decide, by decide,
    memo_is_optimisation specExample specExample_acyclic 3 4 (by decide) (by decide)
      ["A/x", "A/y"] ["A/y", "A/x"] (by decide) (by decide)⟩

/-! ## Soundness of the memo at every point of the run -/

theorem edge_assign_view_sub {g cur : List (String × List String)} {m : String}
    {view : List String} (hsub : ∀ a b, Edge cur a b → Edge g a b)
    (hview : ∀ c ∈ view, Edge g m c) : ∀ a b, Edge (assign cur m view) a b → Edge g a b := by
  intro a b hab
  unfold Edge at hab
  by_cases ha : a = m
  · subst ha
    rw [index_assign_self] at hab
    exact hview b hab
  · rw [index_assign_ne _ _ _ _ ha] at hab
    exact hsub a b hab

theorem DeleteFuncTrace_sound {g cur : List (String × List String)} {rank : String → Nat}
    (hrank : ∀ a b, Edge g a b → rank b < rank a) {fuel : Nat} (hfuel : ∀ a, rank a ≤ fuel)
    (hsub : ∀ a b, Edge cur a b → Edge g a b)
    (hinv : ∀ a b, Edge g a b → Edge cur a b ∨ Detour g a b)
    {m : String} {p : String → Bool} (hp : ∀ d, p d = true ↔ ¬ Detour g m d) :
    ∀ (todo done kept : List String) (noPath : List (String × String)),
      index g m = done ++ todo → kept = done.filter p → MemoSound g noPath →
        ∀ snap ∈ DeleteFuncTrace fuel cur m (index g m) todo kept noPath,
          MemoSound g snap.2 ∧ ∀ a b, Edge snap.1 a b → Edge g a b := by
  intro todo
  induction todo with
  | nil =>
    intro done kept noPath _ _ _ snap hs
    simp [DeleteFuncTrace] at hs
  | cons d todo ih =>
    intro done kept noPath horig hkept hmemo snap hs
    obtain ⟨hview, hcov⟩ := view_spec hp horig hkept
    have hsubv := edge_assign_view_sub hsub hview
    obtain ⟨noPath1, hred, hmemo1⟩ :=
      redundant_spec hrank hfuel hsub hinv hp hview hcov hmemo d
    have horig1 : index g m = (done ++ [d]) ++ todo := by
      rw [horig]; simp
    simp only [DeleteFuncTrace, hred, List.mem_cons] at hs
    rcases hs with e | hs
    · rw [e]
      exact ⟨hmemo, hsubv⟩
    · cases hpd : p d with
      | true =>
        have hkept1 : kept ++ [d] = (done ++ [d]).filter p := by
          rw [hkept]; simp [List.filter_append, hpd]
        simp only [hpd, Bool.not_true, List.mem_cons] at hs
        rcases hs with e | hs
        · rw [e]
          exact ⟨hmemo1, hsubv⟩
        · exact ih (done ++ [d]) (kept ++ [d]) noPath1 horig1 hkept1 hmemo1 snap hs
      | false =>
        have hkept1 : kept = (done ++ [d]).filter p := by
          rw [hkept]; simp [List.filter_append, hpd]
        simp only [hpd, Bool.not_false, List.mem_cons] at hs
        rcases hs with e | hs
        · rw [e]
          exact ⟨hmemo1, hsubv⟩
        · exact ih (done ++ [d]) kept noPath1 horig1 hkept1 hmemo1 snap hs

theorem reduceNodesTrace_sound {g : List (String × List String)} {rank : String → Nat}
    (hrank : ∀ a b, Edge g a b → rank b < rank a) {fuel : Nat} (hfuel : ∀ a, rank a ≤ fuel)
    (hnd : (keys g).Nodup) {p : String → String → Bool}
    (hp : ∀ m d, p m d = true ↔ ¬ Detour g m d) :
    ∀ (rest done : List String) (noPath : List (String × String)),
      rest.Nodup → (∀ x ∈ rest, x ∉ done) → MemoSound g noPath →
        ∀ snap ∈ reduceNodesTrace fuel rest (pruneOn p done g) noPath,
          MemoSound g snap.2 ∧ ∀ a b, Edge snap.1 a b → Edge g a b := by
  intro rest
  induction rest with
  | nil =>
    intro done noPath _ _ hmemo snap hs
    simp only [reduceNodesTrace, List.mem_singleton] at hs
    rw [hs]
    exact ⟨hmemo, edge_pruneOn_sub p done g⟩
  | cons m rest ih =>
    intro done noPath hrest hdone hmemo snap hs
    have hmd : m ∉ done := hdone m (List.mem_cons_self _ _)
    have hrest1 : m ∉ rest ∧ rest.Nodup := by simpa using hrest
    have hlook : lookup (pruneOn p done g) m = lookup g m := by
      rw [lookup_pruneOn]
      cases lookup g m <;> simp [hmd]
    simp only [reduceNodesTrace, List.mem_cons] at hs
    rcases hs with e | hs
    · rw [e]
      exact ⟨hmemo, edge_pruneOn_sub p done g⟩
    · cases hl : lookup g m with
      | none =>
        rw [hlook, hl] at hs
        exact ih done noPath hrest1.2 (fun x hx => hdone x (List.mem_cons_of_mem _ hx))
          hmemo snap hs
      | some orig =>
        have hmk : m ∈ keys g := mem_keys_of_lookup hl
        have horig : index g m = orig := by simp [index, hl]
        obtain ⟨noPath1, hdel, hmemo1⟩ :=
          DeleteFunc_spec hrank hfuel (edge_pruneOn_sub p done g) (edge_pruneOn_inv hp done)
            (hp m) (index g m) [] [] noPath (by simp) (by simp) hmemo
        rw [hlook, hl] at hs
        simp only at hs
        rw [← horig, hdel] at hs
        rcases List.mem_append.mp hs with hs | hs
        · exact DeleteFuncTrace_sound hrank hfuel (edge_pruneOn_sub p done g)
            (edge_pruneOn_inv hp done) (hp m) (index g m) [] [] noPath (by simp) (by simp)
            hmemo snap hs
        · have hdone1 : ∀ x ∈ rest, x ∉ m :: done := by
            intro x hx hxm
            rcases List.mem_cons.mp hxm with e | h
            · exact hrest1.1 (e ▸ hx)
            · exact hdone x (List.mem_cons_of_mem _ hx) h
          simp only [List.nil_append] at hs
          rw [assign_pruneOn p done m g hnd hmk] at hs
          exact ih (m :: done) noPath1 hrest1.2 hdone1 hmemo1 snap hs

/-- The state in which the loop over the nodes ends is the last point of its trace. -/
theorem reduceNodes_mem_trace (fuel : Nat) :
    ∀ (rest : List String) (deps : List (String × List String)) (noPath : List (String × String))
      (r : List (String × List String) × List (String × String)),
      reduceNodes fuel rest deps noPath = some r → r ∈ reduceNodesTrace fuel rest deps noPath := by
  intro rest
  induction rest with
  | nil =>
    intro deps noPath r h
    simp only [reduceNodes, Option.some.injEq] at h
    simp [reduceNodesTrace, h]
  | cons m rest ih =>
    intro deps noPath r h
    simp only [reduceNodes] at h
    simp only [reduceNodesTrace, List.mem_cons]
    right
    cases hl : lookup deps m with
    | none =>
      rw [hl] at h
      exact ih _ _ _ h
    | some orig =>
      rw [hl] at h
      simp only at h ⊢
      cases hd : DeleteFunc fuel deps m orig orig [] noPath with
      | none => rw [hd] at h; cases h
      | some res =>
        obtain ⟨kept, noPath1⟩ := res
        rw [hd] at h
        simp only at h ⊢
        exact List.mem_append_right _ (ih _ _ _ h)

/-- Claim C17 (memo soundness invariant): on every acyclic graph built by `add`, at every
point of `transitiveReduction` (before each node, at the entry and the return of every
closure call, and at the end) a pair `(c, d)` recorded in the memo has no path of one or
more edges from `c` to `d`, neither in the adjacency map as it is at that point nor in
the original one; the run ends, and its final state is one of these points. -/
theorem memo_sound_throughout (edges : List (String × String))
    (hac : Acyclic (build edges).deps) (fuel : Nat)
    (hfuel : (targets (build edges).deps).length ≤ fuel) (order : List String)
    (horder : order.Perm (keys (build edges).deps)) :
    (∀ snap ∈ (build edges).memoTrace fuel order, ∀ c d, (c, d) ∈ snap.2 →
        ¬ Reach snap.1 c d ∧ ¬ Reach (build edges).deps c d) ∧
      ∃ deps1 noPath1, reduceNodes fuel order (build edges).deps [] = some (deps1, noPath1) ∧
        (deps1, noPath1) ∈ (build edges).memoTrace fuel order := by
  obtain ⟨p, hp⟩ := exists_noDetour (build edges).deps
  obtain ⟨rank, hrank, hbound⟩ := exists_rank (build edges).deps hac
  have hnd := keys_build_nodup edges
  have hord : order.Nodup := horder.nodup_iff.mpr hnd
  have hf : ∀ a, rank a ≤ fuel := fun a => le_trans (hbound a) hfuel
  have h0 : MemoSound (build edges).deps [] := fun c d h => by simp at h
  constructor
  · intro snap hs c d hcd
    have hs1 : snap ∈ reduceNodesTrace fuel order (pruneOn p [] (build edges).deps) [] := by
      rw [pruneOn_nil]
      exact hs
    obtain ⟨h1, h2⟩ := reduceNodesTrace_sound hrank hf hnd hp order [] [] hord (by simp) h0
      snap hs1
    exact ⟨fun hr => h1 c d hcd (Reach.mono h2 hr), h1 c d hcd⟩
  · obtain ⟨noPath1, hrun, _⟩ := reduceNodes_spec hrank hf hnd hp order [] [] hord (by simp) h0
    rw [pruneOn_nil] at hrun
    exact ⟨_, noPath1, hrun, reduceNodes_mem_trace fuel order _ _ _ hrun⟩

theorem memo_sound_throughout_witness :
    (Acyclic (build specExample).deps ∧ (targets (build specExample).deps).length ≤ 3 ∧
        List.Perm ["A/x", "A/y"] (keys (build specExample).deps)) ∧
      reduceNodes 3 ["A/x", "A/y"] (build specExample).deps [] =
        some ([("A/x", ["A/y"]), ("A/y", ["A/z"])], [("A/z", "A/y")]) ∧
      (∀ snap ∈ (build specExample).memoTrace 3 ["A/x", "A/y"], ∀ c d, (c, d) ∈ snap.2 →
        ¬ Reach snap.1 c d ∧ ¬ Reach (build specExample).deps c d) ∧
      ∃ deps1 noPath1,
        reduceNodes 3 ["A/x", "A/y"] (build specExample).deps [] = some (deps1, noPath1) ∧
        (deps1, noPath1) ∈ (build specExample).memoTrace 3 ["A/x", "A/y"] :=
  ⟨⟨specExample_acyclic, by decide, by decide⟩, by decide,
    memo_sound_throughout specExample specExample_acyclic 3 (by decide) ["A/x", "A/y"]
      (by decide)⟩

/-! ## A self-loop -/

theorem selfLoop_deps (a b : String) (hab : a ≠ b) :
    (build [(a, a), (a, b)]).deps = [(a, [a, b])] ∧
      (build [(a, b), (a, a)]).deps = [(a, [b, a])] := by
  have hba : b ≠ a := fun e => hab e.symm
  constructor
  · simp only [build, List.foldl, add_deps]
    simp [newState, lookup, assign, hba]
  · simp only [build, List.foldl, add_deps]
    simp [newState, lookup, assign, hab]

theorem selfLoop_reduce (a b : String) (hab : a ≠ b) (n : Nat) :
    (∃ noPath, reduceNodes (n + 2) [a] [(a, [a, b])] [] = some ([(a, [a])], noPath)) ∧
      ∃ noPath, reduceNodes (n + 2) [a] [(a, [b, a])] [] = some ([(a, [a])], noPath) := by
  have hba : b ≠ a := fun e => hab e.symm
  constructor
  · refine ⟨[(b, a)], ?_⟩
    simp [reduceNodes, DeleteFunc, redundant, search, expand, record, lookup, assign, index,
      hab, hba]
  · refine ⟨[(b, a)], ?_⟩
    simp [reduceNodes, DeleteFunc, redundant, search, expand, record, lookup, assign, index,
      hab, hba]

theorem reach_selfLoop_only (a : String) :
    ∀ x y, Reach [(a, [a])] x y → y = a := by
  have hedge : ∀ x y, Edge [(a, [a])] x y → y = a := by
    intro x y h
    unfold Edge index at h
    by_cases hx : a = x
    · simpa [lookup, hx] using h
    · simp [lookup, hx] at h
  intro x y h
  induction h with
  | single h => exact hedge _ _ h
  | tail _ h _ => exact hedge _ _ h

/-- Claim C18 (self-loop behaviour): for two distinct nodes `a` and `b`, on the state built
by `add(a, a)` and `add(a, b)` in either order, `transitiveReduction` returns (two rounds of
fuel suffice) and leaves `[a]` as the list of `a`: the edge `a → b` is removed, so `b`,
reachable from `a` before the reduction, is not reachable from `a` afterwards. -/
theorem self_loop_drops_edge (a b : String) (hab : a ≠ b) (fuel : Nat) (hfuel : 2 ≤ fuel)
    (order : List String) (horder : order.Perm [a]) :
    (∃ s1, (build [(a, a), (a, b)]).transitiveReduction fuel order = some s1 ∧
        index s1.deps a = [a] ∧ Reach (build [(a, a), (a, b)]).deps a b ∧
        ¬ Reach s1.deps a b) ∧
      ∃ s1, (build [(a, b), (a, a)]).transitiveReduction fuel order = some s1 ∧
        index s1.deps a = [a] ∧ Reach (build [(a, b), (a, a)]).deps a b ∧
        ¬ Reach s1.deps a b := by
  have hord : order = [a] := List.perm_singleton.mp horder
  obtain ⟨n, rfl⟩ : ∃ n, fuel = n + 2 := ⟨fuel - 2, by omega⟩
  obtain ⟨hd1, hd2⟩ := selfLoop_deps a b hab
  obtain ⟨⟨m1, hr1⟩, ⟨m2, hr2⟩⟩ := selfLoop_reduce a b hab n
  subst hord
  have hidx : index [(a, [a])] a = [a] := by simp [index, lookup]
  have hno : ¬ Reach [(a, [a])] a b := fun h => hab (reach_selfLoop_only a a b h).symm
  constructor
  · refine ⟨{ build [(a, a), (a, b)] with deps := [(a, [a])] }, ?_, hidx, ?_, hno⟩
    · unfold state.transitiveReduction
      rw [hd1, hr1]
    · rw [hd1]
      exact Relation.TransGen.single (by simp [Edge, index, lookup])
  · refine ⟨{ build [(a, b), (a, a)] with deps := [(a, [a])] }, ?_, hidx, ?_, hno⟩
    · unfold state.transitiveReduction
      rw [hd2, hr2]
    · rw [hd2]
      exact Relation.TransGen.single (by simp [Edge, index, lookup])

theorem self_loop_drops_edge_witness :
    ("a" ≠ "b" ∧ 2 ≤ 2 ∧ List.Perm ["a"] ["a"]) ∧
      (build [("a", "a"), ("a", "b")]).transitiveReduction 2 ["a"] =
        some { deps := [("a", ["a"])], seen := ["a", "b"],
               repos := [("a", ["a"]), ("b", ["b"])] } ∧
      (∃ s1, (build [("a", "a"), ("a", "b")]).transitiveReduction 2 ["a"] = some s1 ∧
          index s1.deps "a" = ["a"] ∧ Reach (build [("a", "a"), ("a", "b")]).deps "a" "b" ∧
          ¬ Reach s1.deps "a" "b") ∧
        ∃ s1, (build [("a", "b"), ("a", "a")]).transitiveReduction 2 ["a"] = some s1 ∧
          index s1.deps "a" = ["a"] ∧ Reach (build [("a", "b"), ("a", "a")]).deps "a" "b" ∧
          ¬ Reach s1.deps "a" "b" :=
  ⟨⟨by decide, by decide, by decide⟩, by decide,
    self_loop_drops_edge "a" "b" (by decide) 2 (by decide) ["a"] (by decide)⟩

/-! ## The two ingestions agree -/

theorem inlineSawMod_toLocals (s : state) (path : String) :
    inlineSawMod s.toLocals path = (s.sawMod path).toLocals := by
  unfold inlineSawMod state.sawMod state.toLocals
  by_cases h : path ∈ s.seen
  · simp [h]
  · simp only [h, if_false]
    cases lookup s.repos (Cut path '/').1 <;> rfl

theorem inlineAdd_toLocals (s : state) (a b : String) :
    inlineAdd s.toLocals a b = (s.add a b).toLocals := by
  unfold inlineAdd state.add
  simp only [inlineSawMod_toLocals]
  have hdeps : ((s.sawMod a).sawMod b).toLocals.deps = ((s.sawMod a).sawMod b).deps := rfl
  rw [hdeps]
  cases lookup ((s.sawMod a).sawMod b).deps a with
  | none => rfl
  | some d =>
    by_cases hb : b ∈ d
    · simp [hb]
    · simp [hb, state.toLocals]

theorem foldl_inlineAdd (pairs : List (String × String)) (s : state) :
    pairs.foldl (fun v e => inlineAdd v e.1 e.2) s.toLocals =
      (pairs.foldl (fun s e => s.add e.1 e.2) s).toLocals := by
  induction pairs generalizing s with
  | nil => rfl
  | cons e rest ih =>
    simp only [List.foldl_cons, inlineAdd_toLocals]
    exact ih _

theorem foldl_inlineIngest (pfx : String) (pairs : List (String × String)) (s : state) :
    pairs.foldl
        (fun v pair =>
          if !HasPrefix pair.1 pfx || !HasPrefix pair.2 pfx then v
          else inlineAdd v (TrimPrefix pair.1 pfx) (TrimPrefix pair.2 pfx))
        s.toLocals =
      (pairs.foldl (ingestStep pfx) s).toLocals := by
  induction pairs generalizing s with
  | nil => rfl
  | cons e rest ih =>
    simp only [List.foldl_cons]
    by_cases h : (!HasPrefix e.1 pfx || !HasPrefix e.2 pfx) = true
    · simp only [h, if_true, ingestStep]
      exact ih s
    · simp only [h, ingestStep, inlineAdd_toLocals]
      exact ih _

/-- Claim C19 (old and new ingestion agree): for every sequence of pairs, the inline
ingestion of `modgraph.go` (the `sawMod` closure and the dedup-checked append) builds the
same three maps `deps`, `seen` and `repos`, list orders included, as `state.add` of
`main.go` called on the same pairs in the same order from `newState`; and so do the two
whole loops, filter included, for every `-prefix` value. -/
theorem ingestions_agree (pairs : List (String × String)) :
    (pairs.foldl (fun v e => inlineAdd v e.1 e.2) emptyLocals).deps = (build pairs).deps ∧
      (pairs.foldl (fun v e => inlineAdd v e.1 e.2) emptyLocals).seen = (build pairs).seen ∧
      (pairs.foldl (fun v e => inlineAdd v e.1 e.2) emptyLocals).repos = (build pairs).repos ∧
      ∀ pfx, inlineIngest pfx pairs = (ingest pfx pairs).toLocals := by
  have h := foldl_inlineAdd pairs newState
  have h0 : newState.toLocals = emptyLocals := rfl
  rw [h0] at h
  refine ⟨?_, ?_, ?_, ?_⟩
  · rw [h]; rfl
  · rw [h]; rfl
  · rw [h]; rfl
  · intro pfx
    have h1 := foldl_inlineIngest pfx pairs newState
    rw [h0] at h1
    exact h1

end Modgraph
